import Mathlib

/-!
Verification of the PnP (Plug-n-Play) virtual-filesystem and module-resolution core:
the zip-backed layered VFS (package pnpvfs), the virtual-path rewriter
(resolveVirtual / makeVirtualPath), the archive-reader LRU cache (getMatchingFS /
deleteOldestReader), the manifest resolver (ResolveToUnqualified, FindLocator,
ParseBareIdentifier) and the process-wide manifest cache (GetPnpApi / ClearPnpCache).

Strings are modelled as lists of characters (`Str`).  The Go standard-library
helpers the source calls (strings.Split, strings.SplitN, strings.Index,
path.Clean, path.Dir, path.Join, filepath.Rel, strconv.Atoi, strconv.Itoa) are
external collaborators; they are modelled here faithfully to their documented
behaviour on forward-slash paths (the Go path functions on Linux).  Byte indices
in the Go code are character indices here; the separators involved are ASCII, so
slicing positions coincide on rune boundaries.
-/

abbrev Str := List Char

def str (s : String) : Str := s.data

/-- Model of a Go test `len(sep) <= len(s) && s[:len(sep)] == sep`:
`hasLead pat s` is true when `pat` is an initial run of `s`. -/
def hasLead : Str → Str → Bool
  | [], _ => true
  | _ :: _, [] => false
  | c :: p, d :: s => c = d && hasLead p s

/-- Model of Go strings.Index + slicing: the first occurrence of `sep` in `s`,
returned as the part strictly before it and the part strictly after it. -/
def splitFirst (sep : Str) : Str → Option (Str × Str)
  | [] => if hasLead sep [] then some ([], []) else none
  | c :: t =>
    if hasLead sep (c :: t) then some ([], (c :: t).drop sep.length)
    else
      match splitFirst sep t with
      | some (pre, post) => some (c :: pre, post)
      | none => none

/-- Model of Go strings.Contains. -/
def containsSub (sep s : Str) : Bool := (splitFirst sep s).isSome

theorem splitFirst_nil (sep : Str) :
    splitFirst sep [] = if hasLead sep [] then some (([] : Str), ([] : Str)) else none := rfl

theorem splitFirst_cons (sep : Str) (c : Char) (t : Str) :
    splitFirst sep (c :: t) =
      if hasLead sep (c :: t) then some (([] : Str), (c :: t).drop sep.length)
      else
        match splitFirst sep t with
        | some (pre, post) => some (c :: pre, post)
        | none => none := rfl

theorem hasLead_iff (p s : Str) : hasLead p s = true ↔ ∃ t, s = p ++ t := by
  induction p generalizing s with
  | nil => simp [hasLead]
  | cons c p ih =>
    cases s with
    | nil => simp [hasLead]
    | cons d t =>
      simp only [hasLead, Bool.and_eq_true, decide_eq_true_eq, ih]
      constructor
      · rintro ⟨rfl, u, rfl⟩
        exact ⟨u, rfl⟩
      · rintro ⟨u, h⟩
        cases h
        exact ⟨rfl, u, rfl⟩

theorem hasLead_append (p t : Str) : hasLead p (p ++ t) = true :=
  (hasLead_iff p (p ++ t)).mpr ⟨t, rfl⟩

theorem containsSub_cons (sep : Str) (c : Char) (t : Str) :
    containsSub sep (c :: t) = (hasLead sep (c :: t) || containsSub sep t) := by
  unfold containsSub
  rw [splitFirst_cons]
  by_cases hl : hasLead sep (c :: t) = true
  · simp [hl]
  · rw [Bool.not_eq_true] at hl
    rw [hl]
    simp only [Bool.false_eq_true, if_false, Bool.false_or]
    cases hsf : splitFirst sep t with
    | none => simp
    | some pr => cases pr with
      | mk x y => simp

theorem splitFirst_eq_decomp {sep s pre post : Str}
    (h : splitFirst sep s = some (pre, post)) : s = pre ++ sep ++ post := by
  induction s generalizing pre post with
  | nil =>
    rw [splitFirst_nil] at h
    by_cases hl : hasLead sep [] = true
    · rcases (hasLead_iff _ _).mp hl with ⟨t, ht⟩
      rcases List.append_eq_nil.mp ht.symm with ⟨h1, h2⟩
      rw [hl] at h
      simp only [if_true, Option.some.injEq, Prod.mk.injEq] at h
      simp [← h.1, ← h.2, h1, h2]
    · rw [Bool.not_eq_true] at hl
      rw [hl] at h
      simp at h
  | cons c t ih =>
    rw [splitFirst_cons] at h
    by_cases hl : hasLead sep (c :: t) = true
    · rcases (hasLead_iff _ _).mp hl with ⟨u, hu⟩
      rw [hl] at h
      simp only [if_true, Option.some.injEq, Prod.mk.injEq] at h
      rw [hu, List.drop_append_of_le_length (le_refl _)] at h
      simp only [List.drop_length, List.nil_append] at h
      rw [← h.1, hu, h.2]
      simp
    · rw [Bool.not_eq_true] at hl
      rw [hl] at h
      simp only [Bool.false_eq_true, if_false] at h
      match hrec : splitFirst sep t with
      | none => rw [hrec] at h; exact absurd h (by simp)
      | some (pre2, post2) =>
        rw [hrec] at h
        simp only [Option.some.injEq, Prod.mk.injEq] at h
        rw [← h.1, ← h.2]
        simp [ih hrec]

theorem containsSub_nil_left (s : Str) : containsSub [] s = true := by
  cases s with
  | nil => simp [containsSub, splitFirst_nil, hasLead]
  | cons c t =>
    unfold containsSub
    rw [splitFirst_cons]
    simp [hasLead]

theorem containsSub_append_lead (sep b : Str) : containsSub sep (sep ++ b) = true := by
  cases sep with
  | nil => exact containsSub_nil_left b
  | cons c t =>
    have hshape : (c :: t) ++ b = c :: (t ++ b) := by simp
    rw [hshape, containsSub_cons]
    have hl : hasLead (c :: t) (c :: (t ++ b)) = true := by
      rw [hasLead_iff]
      exact ⟨b, by simp⟩
    rw [hl]
    simp

theorem containsSub_of_hasLead {sep s : Str} (h : hasLead sep s = true) :
    containsSub sep s = true := by
  rcases (hasLead_iff _ _).mp h with ⟨t, rfl⟩
  exact containsSub_append_lead sep t

theorem containsSub_of_decomp {sep s a b : Str} (h : s = a ++ sep ++ b) :
    containsSub sep s = true := by
  subst h
  induction a with
  | nil =>
    simp only [List.nil_append]
    exact containsSub_append_lead sep b
  | cons c a ih =>
    rw [List.cons_append, List.cons_append, containsSub_cons]
    rw [List.append_assoc] at ih ⊢
    rw [ih]
    simp

/-- If the first `sep`-free region is known, splitFirst finds exactly it:
`sep` does not occur in `a ++ sep.dropLast` (which covers every occurrence that
would start strictly before `a.length`). -/
theorem splitFirst_append_of_not_contains {sep a r : Str} (hsep : sep ≠ [])
    (h : containsSub sep (a ++ sep.dropLast) = false) :
    splitFirst sep (a ++ (sep ++ r)) = some (a, r) := by
  induction a with
  | nil =>
    cases sep with
    | nil => exact absurd rfl hsep
    | cons c t =>
      have hshape : ([] : Str) ++ ((c :: t) ++ r) = c :: (t ++ r) := by simp
      rw [hshape, splitFirst_cons]
      have hl : hasLead (c :: t) (c :: (t ++ r)) = true := by
        rw [hasLead_iff]
        exact ⟨r, by simp⟩
      rw [hl]
      simp only [if_true]
      have hd : (c :: (t ++ r)).drop (c :: t).length = r := by
        simp only [List.length_cons, List.drop_succ_cons]
        exact List.drop_left t r
      rw [hd]
  | cons c a ih =>
    have hlen : sep.length ≤ (c :: (a ++ sep.dropLast)).length := by
      simp only [List.length_cons, List.length_append, List.length_dropLast]
      have := List.length_pos.mpr hsep
      omega
    rw [List.cons_append] at h
    have hnl : hasLead sep (c :: (a ++ (sep ++ r))) = false := by
      by_contra hcon
      rw [Bool.not_eq_false] at hcon
      rcases (hasLead_iff _ _).mp hcon with ⟨u, hu⟩
      have hsepd : sep.dropLast ++ [sep.getLast hsep] = sep :=
        List.dropLast_append_getLast hsep
      have hdecomp : c :: (a ++ (sep ++ r)) =
          (c :: (a ++ sep.dropLast)) ++ ([sep.getLast hsep] ++ r) := by
        conv_lhs => rw [← hsepd]
        simp [List.append_assoc]
      have htake : sep = (c :: (a ++ (sep ++ r))).take sep.length := by
        rw [hu, List.take_append_of_le_length (le_refl _)]
        simp
      rw [hdecomp, List.take_append_of_le_length hlen] at htake
      have hl2 : hasLead sep (c :: (a ++ sep.dropLast)) = true := by
        rw [hasLead_iff]
        refine ⟨(c :: (a ++ sep.dropLast)).drop sep.length, ?_⟩
        conv_lhs => rw [← List.take_append_drop sep.length (c :: (a ++ sep.dropLast))]
        rw [← htake]
      have := containsSub_of_hasLead hl2
      rw [h] at this
      exact absurd this (by simp)
    have htail : containsSub sep (a ++ sep.dropLast) = false := by
      by_contra hcon
      rw [Bool.not_eq_false] at hcon
      have : containsSub sep (c :: (a ++ sep.dropLast)) = true := by
        rw [containsSub_cons, hcon]
        simp
      rw [h] at this
      exact absurd this (by simp)
    have hrec := ih htail
    rw [List.cons_append, splitFirst_cons, hnl]
    simp only [Bool.false_eq_true, if_false]
    rw [hrec]

theorem splitFirst_none_of_not_contains {sep s : Str}
    (h : containsSub sep s = false) : splitFirst sep s = none := by
  unfold containsSub at h
  cases hsf : splitFirst sep s with
  | none => rfl
  | some pr => rw [hsf] at h; simp at h

/-- Post-component of a successful split is strictly shorter (sep nonempty). -/
theorem splitFirst_post_lt {sep s pre post : Str} (hsep : sep ≠ [])
    (h : splitFirst sep s = some (pre, post)) : post.length < s.length := by
  have := splitFirst_eq_decomp h
  subst this
  have := List.length_pos.mpr hsep
  simp only [List.length_append]
  omega

/-- Fuel-driven splitter; the fuel `s.length` always suffices because each
successful split strictly shortens the remainder. -/
def splitOnSubAux (sep : Str) : Nat → Str → List Str
  | 0, s => [s]
  | fuel + 1, s =>
    match splitFirst sep s with
    | none => [s]
    | some (pre, post) => pre :: splitOnSubAux sep fuel post

/-- Model of Go strings.Split for a nonempty separator (the sources never split
on an empty separator). -/
def splitOnSub (sep s : Str) : List Str :=
  if sep = [] then [s] else splitOnSubAux sep s.length s

theorem splitOnSubAux_fuel {sep : Str} (hsep : sep ≠ []) :
    ∀ fuel1 fuel2 s, s.length ≤ fuel1 → s.length ≤ fuel2 →
      splitOnSubAux sep fuel1 s = splitOnSubAux sep fuel2 s := by
  intro fuel1
  induction fuel1 with
  | zero =>
    intro fuel2 s h1 h2
    have hs : s = [] := List.eq_nil_of_length_eq_zero (Nat.le_zero.mp h1)
    subst hs
    cases fuel2 with
    | zero => rfl
    | succ f =>
      unfold splitOnSubAux
      rw [splitFirst_none_of_not_contains (by
        unfold containsSub
        rw [splitFirst_nil]
        cases hsl : hasLead sep []
        · simp
        · rcases (hasLead_iff _ _).mp hsl with ⟨t, ht⟩
          rcases List.append_eq_nil.mp ht.symm with ⟨hc, _⟩
          exact absurd hc hsep)]
  | succ f1 ih =>
    intro fuel2 s h1 h2
    cases fuel2 with
    | zero =>
      have hs : s = [] := List.eq_nil_of_length_eq_zero (Nat.le_zero.mp h2)
      subst hs
      unfold splitOnSubAux
      rw [splitFirst_none_of_not_contains (by
        unfold containsSub
        rw [splitFirst_nil]
        cases hsl : hasLead sep []
        · simp
        · rcases (hasLead_iff _ _).mp hsl with ⟨t, ht⟩
          rcases List.append_eq_nil.mp ht.symm with ⟨hc, _⟩
          exact absurd hc hsep)]
    | succ f2 =>
      unfold splitOnSubAux
      cases hsf : splitFirst sep s with
      | none => rfl
      | some pr =>
        cases pr with
        | mk pre post =>
          have hlt : post.length < s.length := splitFirst_post_lt hsep hsf
          show pre :: splitOnSubAux sep f1 post = pre :: splitOnSubAux sep f2 post
          rw [ih f2 post (by omega) (by omega)]


/-- Model of Go strings.Split with a single-character separator. -/
def charSplit (c : Char) : Str → List Str
  | [] => [[]]
  | d :: t =>
    if d = c then [] :: charSplit c t
    else
      match charSplit c t with
      | [] => [[d]]
      | p :: rest => (d :: p) :: rest

theorem charSplit_ne_nil (c : Char) (s : Str) : charSplit c s ≠ [] := by
  cases s with
  | nil => simp [charSplit]
  | cons d t =>
    unfold charSplit
    by_cases h : d = c
    · simp [h]
    · simp only [h, if_false]
      cases charSplit c t with
      | nil => simp
      | cons p rest => simp

theorem charSplit_cons (c d : Char) (t : Str) :
    charSplit c (d :: t) =
      if d = c then [] :: charSplit c t
      else
        match charSplit c t with
        | [] => [[d]]
        | p :: rest => (d :: p) :: rest := rfl

theorem intercalate_cons_cons (sep : Str) (a b : Str) (rest : List Str) :
    List.intercalate sep (a :: b :: rest) = a ++ sep ++ List.intercalate sep (b :: rest) := by
  simp [List.intercalate, List.intersperse, List.append_assoc]

theorem intercalate_singleton (sep : Str) (a : Str) :
    List.intercalate sep [a] = a := by
  simp [List.intercalate, List.intersperse]

theorem intercalate_cons_head (sep : Str) (d : Char) (p : Str) (rest : List Str) :
    List.intercalate sep ((d :: p) :: rest) = d :: List.intercalate sep (p :: rest) := by
  cases rest with
  | nil => simp [List.intercalate]
  | cons q rs =>
    rw [intercalate_cons_cons, intercalate_cons_cons]
    simp

theorem intercalate_charSplit (c : Char) (s : Str) :
    List.intercalate [c] (charSplit c s) = s := by
  induction s with
  | nil => simp [charSplit, List.intercalate]
  | cons d t ih =>
    unfold charSplit
    by_cases h : d = c
    · simp only [h, if_true]
      cases hcs : charSplit c t with
      | nil => exact absurd hcs (charSplit_ne_nil c t)
      | cons p rest =>
        rw [intercalate_cons_cons]
        rw [← hcs, ih]
        simp
    · simp only [h, if_false]
      cases hcs : charSplit c t with
      | nil => exact absurd hcs (charSplit_ne_nil c t)
      | cons p rest =>
        rw [intercalate_cons_head]
        rw [← hcs, ih]

/-- The segment list of a slash-joined list of slash-free segments. -/
theorem charSplit_intercalate (c : Char) (L : List Str) (hne : L ≠ [])
    (hfree : ∀ s ∈ L, c ∉ s) : charSplit c (List.intercalate [c] L) = L := by
  induction L with
  | nil => exact absurd rfl hne
  | cons p rest ih =>
    cases rest with
    | nil =>
      rw [intercalate_singleton]
      have hp : c ∉ p := hfree p (by simp)
      clear ih hne hfree
      induction p with
      | nil => simp [charSplit]
      | cons d q ihq =>
        have hd : d ≠ c := by
          intro hdc
          exact hp (by simp [hdc])
        have hq : c ∉ q := fun hin => hp (by simp [hin])
        unfold charSplit
        simp only [hd, if_false]
        rw [ihq hq]
    | cons q rs =>
      rw [intercalate_cons_cons]
      have hp : c ∉ p := hfree p (by simp)
      have hrest : charSplit c (List.intercalate [c] (q :: rs)) = q :: rs :=
        ih (by simp) (fun s hs => hfree s (by simp [hs]))
      clear ih hne hfree
      induction p with
      | nil =>
        simp only [List.nil_append]
        have : [c] ++ List.intercalate [c] (q :: rs) =
            c :: List.intercalate [c] (q :: rs) := by simp
        rw [this]
        unfold charSplit
        simp [hrest]
      | cons d p2 ihp =>
        have hd : d ≠ c := by
          intro hdc
          exact hp (by simp [hdc])
        have hp2 : c ∉ p2 := fun hin => hp (by simp [hin])
        have hshape : (d :: p2) ++ [c] ++ List.intercalate [c] (q :: rs) =
            d :: (p2 ++ [c] ++ List.intercalate [c] (q :: rs)) := by simp
        rw [hshape]
        unfold charSplit
        simp only [hd, if_false]
        rw [ihp hp2]

/-- Model of Go strings.Index with a single-character pattern. -/
def charIndex (c : Char) : Str → Option Nat
  | [] => none
  | d :: t => if d = c then some 0 else (charIndex c t).map (· + 1)

theorem charIndex_not_mem {c : Char} {s : Str} (h : c ∉ s) : charIndex c s = none := by
  induction s with
  | nil => rfl
  | cons d t ih =>
    have hd : d ≠ c := fun hdc => h (by simp [hdc])
    have ht : c ∉ t := fun hin => h (by simp [hin])
    simp [charIndex, hd, ih ht]

theorem charIndex_append_first {c : Char} {a : Str} (b : Str) (h : c ∉ a) :
    charIndex c (a ++ c :: b) = some a.length := by
  induction a with
  | nil => simp [charIndex]
  | cons d t ih =>
    have hd : d ≠ c := fun hdc => h (by simp [hdc])
    have ht : c ∉ t := fun hin => h (by simp [hin])
    simp [charIndex, hd, ih ht]

/-- Index of the last occurrence of a character (used for Go path.Dir, which
splits the path after its final slash). -/
def lastIdxOf (c : Char) : Str → Option Nat
  | [] => none
  | d :: t =>
    match lastIdxOf c t with
    | some i => some (i + 1)
    | none => if d = c then some 0 else none

theorem lastIdxOf_not_mem {c : Char} {s : Str} (h : c ∉ s) : lastIdxOf c s = none := by
  induction s with
  | nil => rfl
  | cons d t ih =>
    have hd : d ≠ c := fun hdc => h (by simp [hdc])
    have ht : c ∉ t := fun hin => h (by simp [hin])
    simp [lastIdxOf, hd, ih ht]

theorem lastIdxOf_append_last {c : Char} {b : Str} (a : Str) (h : c ∉ b) :
    lastIdxOf c (a ++ c :: b) = some a.length := by
  induction a with
  | nil => simp [lastIdxOf, lastIdxOf_not_mem h]
  | cons d t ih => simp [lastIdxOf, ih]

/-- Model of Go strings.HasSuffix. -/
def hasEnd (pat s : Str) : Bool := hasLead pat.reverse s.reverse

theorem hasEnd_append (s pat : Str) : hasEnd pat (s ++ pat) = true := by
  unfold hasEnd
  rw [List.reverse_append]
  exact hasLead_append pat.reverse s.reverse

/-- Fuel-driven decimal printer; the fuel `n` always suffices since the
argument shrinks by a factor of ten each step.  The fuel-zero fallback is
unreachable (it would need an argument both `≥ 10` and `≤ 0`). -/
def toDecimalAux : Nat → Nat → Str
  | 0, n => [Char.ofNat (48 + n % 10)]
  | fuel + 1, n =>
    if n < 10 then [Char.ofNat (48 + n)]
    else toDecimalAux fuel (n / 10) ++ [Char.ofNat (48 + n % 10)]

/-- Model of strconv.Itoa for the non-negative values produced by the code
(the depth counter): the canonical decimal digits. -/
def toDecimal (n : Nat) : Str := toDecimalAux n n

def isDigitCh (c : Char) : Bool := 48 ≤ c.toNat && c.toNat ≤ 57

def digitsVal (s : Str) : Nat := s.foldl (fun a c => a * 10 + (c.toNat - 48)) 0

/-- Digits part of strconv.Atoi: all characters must be digits, the digit
string must be nonempty, and the value must fit in Go int64. -/
def goAtoiDigits (neg : Bool) (ds : Str) : Option Int :=
  if ds = [] then none
  else if ds.all isDigitCh then
    let v : Nat := digitsVal ds
    if neg then (if v ≤ 2 ^ 63 then some (-(v : Int)) else none)
    else (if v ≤ 2 ^ 63 - 1 then some ((v : Int)) else none)
  else none

/-- Model of strconv.Atoi (64-bit int): optional sign, decimal digits,
range-checked; any other input is an error (`none`). -/
def goAtoi : Str → Option Int
  | [] => none
  | c :: t =>
    if c = '+' then goAtoiDigits false t
    else if c = '-' then goAtoiDigits true t
    else goAtoiDigits false (c :: t)

theorem char_ofNat_digit_toNat {n : Nat} (h : n < 10) :
    (Char.ofNat (48 + n)).toNat = 48 + n := by
  interval_cases n <;> decide

theorem isDigitCh_ofNat {n : Nat} (h : n < 10) :
    isDigitCh (Char.ofNat (48 + n)) = true := by
  interval_cases n <;> decide

theorem toDecimalAux_all_digits (fuel n : Nat) :
    ∀ c ∈ toDecimalAux fuel n, isDigitCh c = true := by
  induction fuel generalizing n with
  | zero =>
    intro c hc
    simp only [toDecimalAux, List.mem_singleton] at hc
    subst hc
    exact isDigitCh_ofNat (Nat.mod_lt _ (by omega))
  | succ f ih =>
    intro c hc
    unfold toDecimalAux at hc
    by_cases h : n < 10
    · rw [if_pos h] at hc
      simp only [List.mem_singleton] at hc
      subst hc
      exact isDigitCh_ofNat h
    · rw [if_neg h] at hc
      rw [List.mem_append] at hc
      cases hc with
      | inl hin => exact ih (n / 10) c hin
      | inr hin =>
        simp only [List.mem_singleton] at hin
        subst hin
        exact isDigitCh_ofNat (Nat.mod_lt _ (by omega))

theorem toDecimal_all_digits (n : Nat) : ∀ c ∈ toDecimal n, isDigitCh c = true :=
  toDecimalAux_all_digits n n

theorem toDecimalAux_ne_nil (fuel n : Nat) : toDecimalAux fuel n ≠ [] := by
  cases fuel with
  | zero => simp [toDecimalAux]
  | succ f =>
    unfold toDecimalAux
    by_cases h : n < 10 <;> simp [h]

theorem toDecimal_ne_nil (n : Nat) : toDecimal n ≠ [] := toDecimalAux_ne_nil n n

theorem digitsVal_append_digit (a : Str) (c : Char) :
    digitsVal (a ++ [c]) = digitsVal a * 10 + (c.toNat - 48) := by
  unfold digitsVal
  rw [List.foldl_append]
  simp

theorem digitsVal_toDecimalAux (fuel n : Nat) (hle : n ≤ fuel) :
    digitsVal (toDecimalAux fuel n) = n := by
  induction fuel generalizing n with
  | zero =>
    have hz : n = 0 := Nat.le_zero.mp hle
    subst hz
    simp only [toDecimalAux, digitsVal, List.foldl_cons, List.foldl_nil]
    rw [char_ofNat_digit_toNat (by omega)]
  | succ f ih =>
    unfold toDecimalAux
    by_cases h : n < 10
    · rw [if_pos h]
      simp only [digitsVal, List.foldl_cons, List.foldl_nil]
      rw [char_ofNat_digit_toNat h]
      omega
    · rw [if_neg h]
      rw [digitsVal_append_digit]
      have h10 : 10 ≤ n := Nat.le_of_not_lt h
      have hdiv : n / 10 ≤ f := by
        have := Nat.div_lt_self (show 0 < n by omega) (show 1 < 10 by omega)
        omega
      rw [ih (n / 10) hdiv]
      rw [char_ofNat_digit_toNat (Nat.mod_lt _ (by omega))]
      omega

theorem digitsVal_toDecimal (n : Nat) : digitsVal (toDecimal n) = n :=
  digitsVal_toDecimalAux n n (le_refl n)

theorem toDecimal_head_digit (n : Nat) :
    ∃ c t, toDecimal n = c :: t ∧ isDigitCh c = true := by
  cases hd : toDecimal n with
  | nil => exact absurd hd (toDecimal_ne_nil n)
  | cons c t =>
    refine ⟨c, t, rfl, ?_⟩
    exact toDecimal_all_digits n c (by rw [hd]; simp)

theorem goAtoi_toDecimal {n : Nat} (h : n ≤ 2 ^ 63 - 1) :
    goAtoi (toDecimal n) = some (n : Int) := by
  rcases toDecimal_head_digit n with ⟨c, t, hd, hdig⟩
  have hplus : c ≠ '+' := by
    intro hc
    rw [hc] at hdig
    exact absurd hdig (by decide)
  have hminus : c ≠ '-' := by
    intro hc
    rw [hc] at hdig
    exact absurd hdig (by decide)
  rw [hd]
  unfold goAtoi
  simp only [hplus, hminus, if_false]
  rw [← hd]
  have hall : (toDecimal n).all isDigitCh = true := by
    rw [List.all_eq_true]
    exact toDecimal_all_digits n
  unfold goAtoiDigits
  rw [if_neg (toDecimal_ne_nil n), if_pos hall]
  simp only [Bool.false_eq_true, if_false, digitsVal_toDecimal]
  rw [if_pos h]

def dotSeg : Str := str "."
def ddSeg : Str := str ".."

/-- The segment-stack loop of Go path.Clean: empty and `.` segments are
dropped, `..` pops a poppable segment, is dropped at the root, and is kept
for relative paths that cannot backtrack. -/
def cleanLoop (rooted : Bool) : List Str → List Str → List Str
  | stack, [] => stack.reverse
  | stack, s :: rest =>
    if s = [] ∨ s = dotSeg then cleanLoop rooted stack rest
    else if s = ddSeg then
      match stack with
      | [] => if rooted then cleanLoop rooted [] rest else cleanLoop rooted [ddSeg] rest
      | t :: stack2 =>
        if t = ddSeg then cleanLoop rooted (s :: t :: stack2) rest
        else cleanLoop rooted stack2 rest
    else cleanLoop rooted (s :: stack) rest

theorem cleanLoop_nil (rooted : Bool) (stack : List Str) :
    cleanLoop rooted stack [] = stack.reverse := rfl

theorem cleanLoop_cons (rooted : Bool) (stack : List Str) (s : Str) (rest : List Str) :
    cleanLoop rooted stack (s :: rest) =
      if s = [] ∨ s = dotSeg then cleanLoop rooted stack rest
      else if s = ddSeg then
        match stack with
        | [] => if rooted then cleanLoop rooted [] rest else cleanLoop rooted [ddSeg] rest
        | t :: stack2 =>
          if t = ddSeg then cleanLoop rooted (s :: t :: stack2) rest
          else cleanLoop rooted stack2 rest
      else cleanLoop rooted (s :: stack) rest := rfl

/-- Model of Go path.Clean (equal to filepath.Clean on forward-slash paths). -/
def clean (p : Str) : Str :=
  if p = [] then dotSeg
  else
    let rooted := hasLead (str "/") p
    let parts := cleanLoop rooted [] (charSplit '/' p)
    if rooted then '/' :: List.intercalate (str "/") parts
    else if parts = [] then dotSeg else List.intercalate (str "/") parts

/-- A plain path segment: nonempty, slash-free, not `.` and not `..`. -/
def goodSeg (s : Str) : Prop := s ≠ [] ∧ '/' ∉ s ∧ s ≠ dotSeg ∧ s ≠ ddSeg

instance : DecidablePred goodSeg := fun s => by unfold goodSeg; infer_instance

def goodSegs (L : List Str) : Prop := ∀ s ∈ L, goodSeg s

instance (L : List Str) : Decidable (goodSegs L) := by
  unfold goodSegs; infer_instance

/-- Model of Go strings.Join(segs, slash): segments joined by `/`. -/
def joinSegs (l : List Str) : Str := List.intercalate (str "/") l

/-- The absolute clean path with the given segments (`/` when empty). -/
def absOf (L : List Str) : Str := '/' :: joinSegs L

theorem str_slash : str "/" = ['/'] := rfl

theorem goodSegs_sub {L M : List Str} (h : goodSegs L) (hsub : M ⊆ L) :
    goodSegs M := fun s hs => h s (hsub hs)

theorem joinSegs_eq_nil_iff {L : List Str} (h : goodSegs L) :
    joinSegs L = [] ↔ L = [] := by
  cases L with
  | nil => simp [joinSegs, List.intercalate]
  | cons s t =>
    cases t with
    | nil =>
      have hs : s ≠ [] := (h s (by simp)).1
      simp only [joinSegs, intercalate_singleton]
      simp [hs]
    | cons q r =>
      simp only [joinSegs, intercalate_cons_cons]
      have hs : s ≠ [] ∨ True := Or.inr trivial
      constructor
      · intro hnil
        rcases List.append_eq_nil.mp hnil with ⟨h1, _⟩
        rcases List.append_eq_nil.mp h1 with ⟨_, h3⟩
        exact absurd h3 (by simp [str])
      · intro hcon
        exact absurd hcon (by simp)

theorem joinSegs_inj {L M : List Str} (hL : goodSegs L) (hM : goodSegs M)
    (h : joinSegs L = joinSegs M) : L = M := by
  by_cases hLnil : L = []
  · subst hLnil
    have : joinSegs M = [] := by
      rw [← h]; simp [joinSegs, List.intercalate]
    exact ((joinSegs_eq_nil_iff hM).mp this).symm
  · by_cases hMnil : M = []
    · subst hMnil
      have : joinSegs L = [] := by rw [h]; simp [joinSegs, List.intercalate]
      exact absurd ((joinSegs_eq_nil_iff hL).mp this) hLnil
    · have hfL : ∀ s ∈ L, '/' ∉ s := fun s hs => (hL s hs).2.1
      have hfM : ∀ s ∈ M, '/' ∉ s := fun s hs => (hM s hs).2.1
      have h1 : charSplit '/' (joinSegs L) = L := by
        unfold joinSegs
        rw [str_slash]
        exact charSplit_intercalate '/' L hLnil hfL
      have h2 : charSplit '/' (joinSegs M) = M := by
        unfold joinSegs
        rw [str_slash]
        exact charSplit_intercalate '/' M hMnil hfM
      rw [← h1, ← h2, h]

theorem absOf_inj {L M : List Str} (hL : goodSegs L) (hM : goodSegs M)
    (h : absOf L = absOf M) : L = M := by
  unfold absOf at h
  exact joinSegs_inj hL hM (by injection h)

theorem absOf_eq_root_iff {L : List Str} (h : goodSegs L) :
    absOf L = str "/" ↔ L = [] := by
  unfold absOf
  rw [str_slash]
  constructor
  · intro heq
    have : joinSegs L = [] := by injection heq
    exact (joinSegs_eq_nil_iff h).mp this
  · intro heq
    subst heq
    simp [joinSegs, List.intercalate]

theorem hasLead_slash_absOf (L : List Str) : hasLead (str "/") (absOf L) = true := by
  simp [str_slash, absOf, hasLead]

theorem joinSegs_append {L M : List Str} (hL : L ≠ []) (hM : M ≠ []) :
    joinSegs (L ++ M) = joinSegs L ++ '/' :: joinSegs M := by
  induction L with
  | nil => exact absurd rfl hL
  | cons s L2 ih =>
    cases hM2 : M with
    | nil => exact absurd hM2 hM
    | cons q t =>
      cases hL2 : L2 with
      | nil =>
        subst hL2
        subst hM2
        simp only [List.nil_append, List.cons_append]
        unfold joinSegs
        rw [intercalate_cons_cons, intercalate_singleton]
        simp [str_slash]
      | cons p r =>
        rw [← hM2, ← hL2]
        have hL2ne : L2 ≠ [] := by rw [hL2]; simp
        have hcons : (s :: L2) ++ M = s :: (L2 ++ M) := by simp
        rw [hcons]
        have hLMne : L2 ++ M ≠ [] := by
          simp [hL2ne]
        unfold joinSegs
        rcases List.exists_cons_of_ne_nil hLMne with ⟨x, xs, hx⟩
        rcases List.exists_cons_of_ne_nil hL2ne with ⟨y, ys, hy⟩
        rw [hx, intercalate_cons_cons, ← hx]
        rw [hy, intercalate_cons_cons, ← hy]
        have ihh := ih hL2ne
        unfold joinSegs at ihh
        rw [ihh]
        simp [str_slash, List.append_assoc]

theorem joinSegs_snoc {M : List Str} (s : Str) (h : M ≠ []) :
    joinSegs (M ++ [s]) = joinSegs M ++ '/' :: s := by
  rw [joinSegs_append h (by simp)]
  simp [joinSegs, intercalate_singleton]

theorem charSplit_absOf {L : List Str} (hne : L ≠ []) (h : goodSegs L) :
    charSplit '/' (absOf L) = [] :: L := by
  unfold absOf
  rw [charSplit_cons, if_pos rfl]
  unfold joinSegs
  rw [str_slash]
  rw [charSplit_intercalate '/' L hne (fun s hs => (h s hs).2.1)]

theorem cleanLoop_good (rooted : Bool) (L : List Str) (h : goodSegs L) :
    ∀ stack, cleanLoop rooted stack L = stack.reverse ++ L := by
  induction L with
  | nil => intro stack; simp [cleanLoop]
  | cons s rest ih =>
    intro stack
    have hs := h s (by simp)
    have hrest : goodSegs rest := fun q hq => h q (by simp [hq])
    rw [cleanLoop_cons]
    rw [if_neg (by simp [hs.1, hs.2.2.1]), if_neg hs.2.2.2]
    rw [ih hrest (s :: stack)]
    simp

theorem cleanLoop_skip_nil (rooted : Bool) (stack : List Str) (rest : List Str) :
    cleanLoop rooted stack ([] :: rest) = cleanLoop rooted stack rest := by
  rw [cleanLoop_cons]
  rw [if_pos (Or.inl rfl)]

theorem clean_absOf {L : List Str} (h : goodSegs L) : clean (absOf L) = absOf L := by
  cases hL : L with
  | nil => decide
  | cons s rest =>
    rw [← hL]
    have hne : L ≠ [] := by rw [hL]; simp
    unfold clean
    rw [if_neg (by simp [absOf])]
    rw [hasLead_slash_absOf]
    simp only [if_true]
    rw [charSplit_absOf hne h, cleanLoop_skip_nil, cleanLoop_good true L h []]
    simp [absOf, joinSegs]

theorem charSplit_snoc (c : Char) (s : Str) :
    charSplit c (s ++ [c]) = charSplit c s ++ [[]] := by
  induction s with
  | nil => simp [charSplit]
  | cons d t ih =>
    by_cases hd : d = c
    · simp only [List.cons_append]
      rw [charSplit_cons, if_pos hd, charSplit_cons, if_pos hd, ih]
      simp
    · simp only [List.cons_append]
      rw [charSplit_cons, if_neg hd, charSplit_cons, if_neg hd, ih]
      cases hcs : charSplit c t with
      | nil => exact absurd hcs (charSplit_ne_nil c t)
      | cons p rest2 => simp

theorem cleanLoop_append_good (rooted : Bool) (L : List Str) (h : goodSegs L)
    (rest : List Str) (stack : List Str) :
    cleanLoop rooted stack (L ++ rest) = cleanLoop rooted (L.reverse ++ stack) rest := by
  induction L generalizing stack with
  | nil => simp
  | cons s t ih =>
    have hs := h s (by simp)
    have ht : goodSegs t := fun q hq => h q (by simp [hq])
    simp only [List.cons_append]
    rw [cleanLoop_cons]
    rw [if_neg (by simp [hs.1, hs.2.2.1]), if_neg hs.2.2.2]
    rw [ih ht (s :: stack)]
    simp

/-- Cleaning an absolute good-segment path with one trailing slash drops the
trailing slash (needed for Go path.Dir, which keeps the final separator). -/
theorem clean_absOf_slash {L : List Str} (h : goodSegs L) :
    clean (absOf L ++ ['/']) = absOf L := by
  cases hL : L with
  | nil => decide
  | cons s rest =>
    rw [← hL]
    have hne : L ≠ [] := by rw [hL]; simp
    unfold clean
    rw [if_neg (by simp [absOf])]
    have hlead : hasLead (str "/") (absOf L ++ ['/']) = true := by
      rw [hasLead_iff]
      refine ⟨joinSegs L ++ ['/'], ?_⟩
      simp [absOf, str_slash]
    rw [hlead]
    simp only [if_true]
    rw [charSplit_snoc, charSplit_absOf hne h]
    rw [List.cons_append]
    rw [cleanLoop_skip_nil]
    rw [cleanLoop_append_good true L h [[]] []]
    rw [cleanLoop_cons, if_pos (Or.inl rfl), cleanLoop_nil]
    simp [absOf, joinSegs]

/-- Model of Go path.Dir (identical to filepath.Dir on Linux): everything up to
and including the final slash, then Clean; `.` when there is no slash. -/
def goDir (p : Str) : Str :=
  match lastIdxOf '/' p with
  | none => dotSeg
  | some i => clean (p.take (i + 1))

theorem goDir_eq_of_lastIdx {p : Str} {i : Nat} (h : lastIdxOf '/' p = some i) :
    goDir p = clean (p.take (i + 1)) := by
  unfold goDir
  rw [h]

theorem goDir_absOf {L : List Str} (h : goodSegs L) (hne : L ≠ []) :
    goDir (absOf L) = absOf L.dropLast := by
  rcases List.exists_cons_of_ne_nil hne with ⟨s0, t0, hL⟩
  have hlast := List.dropLast_append_getLast hne
  set M := L.dropLast with hM
  set s := L.getLast hne with hs
  have hgood_s : goodSeg s := h s (by rw [← hlast]; simp)
  have hgood_M : goodSegs M := by
    intro q hq
    exact h q (by rw [← hlast]; exact List.mem_append_left _ hq)
  cases hMnil : M with
  | nil =>
    have hLs : L = [s] := by rw [← hlast, hMnil]; simp
    rw [hLs]
    have habs : absOf [s] = '/' :: s := by
      simp [absOf, joinSegs, intercalate_singleton]
    rw [habs]
    have hidx : lastIdxOf '/' ('/' :: s) = some 0 := by
      have := lastIdxOf_append_last (c := '/') (a := []) (b := s) hgood_s.2.1
      simpa using this
    rw [goDir_eq_of_lastIdx hidx]
    simp only [List.take_succ_cons, List.take_zero]
    decide
  | cons q t =>
    rw [← hMnil]
    have hMne : M ≠ [] := by rw [hMnil]; simp
    have habs : absOf L = absOf M ++ '/' :: s := by
      rw [← hlast]
      unfold absOf
      rw [joinSegs_snoc s hMne]
      simp
    rw [habs]
    rw [goDir_eq_of_lastIdx (lastIdxOf_append_last (absOf M) hgood_s.2.1)]
    have htake : (absOf M ++ '/' :: s).take ((absOf M).length + 1) =
        absOf M ++ ['/'] := by
      rw [List.take_append]
      simp
    rw [htake]
    exact clean_absOf_slash hgood_M

/-- The source applies filepath.Dir in a counted loop (resolveVirtual). -/
def dirTimes : Nat → Str → Str
  | 0, p => p
  | n + 1, p => dirTimes n (goDir p)

theorem dirTimes_absOf {L : List Str} (h : goodSegs L) :
    ∀ n, n ≤ L.length → dirTimes n (absOf L) = absOf (L.take (L.length - n)) := by
  intro n
  induction n generalizing L with
  | zero =>
    intro _
    simp [dirTimes]
  | succ m ih =>
    intro hle
    have hne : L ≠ [] := by
      intro hnil
      rw [hnil] at hle
      simp at hle
    unfold dirTimes
    rw [goDir_absOf h hne]
    have hdl : goodSegs L.dropLast := goodSegs_sub h (List.dropLast_subset L)
    have hlen : L.dropLast.length = L.length - 1 := by
      rw [List.length_dropLast]
    have hle2 : m ≤ L.dropLast.length := by
      rw [hlen]
      omega
    rw [ih hdl hle2]
    rw [List.dropLast_eq_take, List.length_take, List.take_take]
    have h1 : m + 1 ≤ L.length := hle
    have harith : ((L.length - 1) ⊓ L.length - m) ⊓ (L.length - 1) = L.length - (m + 1) := by
      simp only [Nat.min_def]
      split_ifs <;> omega
    rw [harith]

def nonEmptyElems (l : List Str) : List Str := l.filter (fun e => !e.isEmpty)

/-- Model of Go path.Join (= filepath.Join on Linux): empty elements are
dropped, the rest joined with `/`, and the result Cleaned; all-empty input
gives the empty string. -/
def goJoin (elems : List Str) : Str :=
  if nonEmptyElems elems = [] then []
  else clean (List.intercalate (str "/") (nonEmptyElems elems))

theorem absOf_ne_nil (L : List Str) : absOf L ≠ [] := by simp [absOf]

theorem isEmpty_false_of_ne {s : Str} (h : s ≠ []) : s.isEmpty = false := by
  cases s with
  | nil => exact absurd rfl h
  | cons c t => rfl

theorem goJoin_abs {L M : List Str} (h : goodSegs (L ++ M)) (hL : L ≠ []) :
    goJoin [absOf L, joinSegs M] = absOf (L ++ M) := by
  have hgL : goodSegs L := goodSegs_sub h (List.subset_append_left L M)
  have hgM : goodSegs M := goodSegs_sub h (List.subset_append_right L M)
  by_cases hM : M = []
  · subst hM
    have hj : joinSegs ([] : List Str) = [] := by simp [joinSegs, List.intercalate]
    unfold goJoin
    rw [hj]
    have hne : nonEmptyElems [absOf L, []] = [absOf L] := by
      simp [nonEmptyElems, List.filter, isEmpty_false_of_ne (absOf_ne_nil L)]
    rw [hne]
    rw [if_neg (by simp)]
    rw [intercalate_singleton]
    rw [List.append_nil]
    exact clean_absOf hgL
  · have hjM : joinSegs M ≠ [] := fun hc => hM ((joinSegs_eq_nil_iff hgM).mp hc)
    unfold goJoin
    have hne : nonEmptyElems [absOf L, joinSegs M] = [absOf L, joinSegs M] := by
      simp [nonEmptyElems, List.filter, isEmpty_false_of_ne (absOf_ne_nil L),
        isEmpty_false_of_ne hjM]
    rw [hne]
    rw [if_neg (by simp)]
    rw [intercalate_cons_cons, intercalate_singleton]
    have hcat : absOf L ++ str "/" ++ joinSegs M = absOf (L ++ M) := by
      unfold absOf
      rw [joinSegs_append hL hM]
      simp [str_slash]
    rw [hcat]
    exact clean_absOf h

theorem goJoin_abs_seg {L : List Str} {s : Str} (h : goodSegs (L ++ [s])) (hL : L ≠ []) :
    goJoin [absOf L, s] = absOf (L ++ [s]) := by
  have hj : joinSegs [s] = s := intercalate_singleton _ s
  have hg := goJoin_abs h hL
  rw [hj] at hg
  exact hg

theorem goJoin_abs_four {K : List Str} {h d : Str} {M : List Str}
    (hgood : goodSegs (K ++ [h, d] ++ M)) (hK : K ≠ []) :
    goJoin [absOf K, h, d, joinSegs M] = absOf (K ++ [h, d] ++ M) := by
  have hgK : goodSegs K :=
    goodSegs_sub hgood (by intro x hx; simp [hx])
  have hgh : goodSeg h := hgood h (by simp)
  have hgd : goodSeg d := hgood d (by simp)
  have hgM : goodSegs M :=
    goodSegs_sub hgood (by intro x hx; simp [hx])
  have hKhd : goodSegs (K ++ [h, d]) :=
    goodSegs_sub hgood (by intro x hx; simp at hx; rcases hx with hx | hx | hx <;> simp [hx])
  by_cases hM : M = []
  · subst hM
    have hj : joinSegs ([] : List Str) = [] := by simp [joinSegs, List.intercalate]
    unfold goJoin
    rw [hj]
    have hne : nonEmptyElems [absOf K, h, d, []] = [absOf K, h, d] := by
      simp [nonEmptyElems, List.filter, isEmpty_false_of_ne (absOf_ne_nil K),
        isEmpty_false_of_ne hgh.1, isEmpty_false_of_ne hgd.1]
    rw [hne]
    rw [if_neg (by simp)]
    rw [intercalate_cons_cons, intercalate_cons_cons, intercalate_singleton]
    have hcat : absOf K ++ str "/" ++ (h ++ str "/" ++ d) = absOf (K ++ [h, d]) := by
      unfold absOf
      rw [joinSegs_append hK (by simp : ([h, d] : List Str) ≠ [])]
      have : joinSegs [h, d] = h ++ '/' :: d := by
        unfold joinSegs
        rw [intercalate_cons_cons, intercalate_singleton]
        simp [str_slash]
      rw [this]
      simp [str_slash, List.append_assoc]
    rw [hcat]
    simp only [List.append_nil]
    exact clean_absOf hKhd
  · have hjM : joinSegs M ≠ [] := fun hc => hM ((joinSegs_eq_nil_iff hgM).mp hc)
    unfold goJoin
    have hne : nonEmptyElems [absOf K, h, d, joinSegs M] = [absOf K, h, d, joinSegs M] := by
      simp [nonEmptyElems, List.filter, isEmpty_false_of_ne (absOf_ne_nil K),
        isEmpty_false_of_ne hgh.1, isEmpty_false_of_ne hgd.1, isEmpty_false_of_ne hjM]
    rw [hne]
    rw [if_neg (by simp)]
    rw [intercalate_cons_cons, intercalate_cons_cons, intercalate_cons_cons,
      intercalate_singleton]
    have hseg2 : joinSegs [h, d] = h ++ '/' :: d := by
      unfold joinSegs
      rw [intercalate_cons_cons, intercalate_singleton]
      simp [str_slash]
    have hexp : joinSegs (K ++ [h, d] ++ M) =
        joinSegs K ++ '/' :: ((h ++ '/' :: d) ++ '/' :: joinSegs M) := by
      rw [List.append_assoc]
      rw [joinSegs_append hK (by simp : ([h, d] : List Str) ++ M ≠ [])]
      rw [joinSegs_append (by simp : ([h, d] : List Str) ≠ []) hM]
      rw [hseg2]
    have hcat : absOf K ++ str "/" ++ (h ++ str "/" ++ (d ++ str "/" ++ joinSegs M)) =
        absOf (K ++ [h, d] ++ M) := by
      unfold absOf
      rw [hexp]
      simp [str_slash, List.append_assoc]
    rw [hcat]
    exact clean_absOf hgood

/-- Length of the common leading run of two segment lists. -/
def commonLen : List Str → List Str → Nat
  | a :: as, b :: bs => if a = b then commonLen as bs + 1 else 0
  | _, _ => 0

theorem commonLen_nil_left (bs : List Str) : commonLen [] bs = 0 := by
  cases bs <;> rfl

theorem commonLen_nil_right (as : List Str) : commonLen as [] = 0 := by
  cases as <;> rfl

theorem commonLen_cons (a b : Str) (as bs : List Str) :
    commonLen (a :: as) (b :: bs) =
      if a = b then commonLen as bs + 1 else 0 := rfl

theorem commonLen_le_left (A B : List Str) : commonLen A B ≤ A.length := by
  induction A generalizing B with
  | nil => simp [commonLen_nil_left]
  | cons a as ih =>
    cases B with
    | nil => simp [commonLen_nil_right]
    | cons b bs =>
      rw [commonLen_cons]
      by_cases h : a = b
      · rw [if_pos h]
        simp only [List.length_cons]
        exact Nat.succ_le_succ (ih bs)
      · rw [if_neg h]
        simp

theorem commonLen_le_right (A B : List Str) : commonLen A B ≤ B.length := by
  induction A generalizing B with
  | nil => simp [commonLen_nil_left]
  | cons a as ih =>
    cases B with
    | nil => simp [commonLen_nil_right]
    | cons b bs =>
      rw [commonLen_cons]
      by_cases h : a = b
      · rw [if_pos h]
        simp only [List.length_cons]
        exact Nat.succ_le_succ (ih bs)
      · rw [if_neg h]
        simp

theorem commonLen_take (A B : List Str) :
    A.take (commonLen A B) = B.take (commonLen A B) := by
  induction A generalizing B with
  | nil => simp [commonLen_nil_left]
  | cons a as ih =>
    cases B with
    | nil => simp [commonLen_nil_right]
    | cons b bs =>
      rw [commonLen_cons]
      by_cases h : a = b
      · rw [if_pos h]
        simp only [List.take_succ_cons]
        rw [h, ih bs]
      · rw [if_neg h]
        simp

theorem commonLen_append_left (X Y Z : List Str) :
    commonLen (X ++ Y) (X ++ Z) = X.length + commonLen Y Z := by
  induction X with
  | nil => simp
  | cons x xs ih =>
    simp only [List.cons_append]
    rw [commonLen_cons, if_pos rfl, ih]
    simp only [List.length_cons]
    omega

theorem commonLen_zero_of_ne_head {a b : Str} (as bs : List Str) (h : a ≠ b) :
    commonLen (a :: as) (b :: bs) = 0 := by
  rw [commonLen_cons, if_neg h]

/-- The first-difference scan of Go filepath.Rel on segment lists. -/
def stripCommon : List Str → List Str → List Str × List Str
  | [], bs => ([], bs)
  | a :: as, [] => (a :: as, [])
  | a :: as, b :: bs => if a = b then stripCommon as bs else (a :: as, b :: bs)

theorem stripCommon_eq (A B : List Str) :
    stripCommon A B = (A.drop (commonLen A B), B.drop (commonLen A B)) := by
  induction A generalizing B with
  | nil => simp [stripCommon, commonLen_nil_left]
  | cons a as ih =>
    cases B with
    | nil => simp [stripCommon, commonLen_nil_right]
    | cons b bs =>
      rw [commonLen_cons]
      by_cases h : a = b
      · rw [if_pos h]
        unfold stripCommon
        rw [if_pos h, ih bs]
        simp
      · rw [if_neg h]
        unfold stripCommon
        rw [if_neg h]
        simp

/-- Segment list of a Clean output, as scanned by Go filepath.Rel: the leading
slash of a rooted path is skipped, and the empty relative base has no
segments. -/
def segsOfCleaned (rooted : Bool) (s : Str) : List Str :=
  if rooted then (if s = str "/" then [] else charSplit '/' (s.drop 1))
  else (if s = [] then [] else charSplit '/' s)

/-- Model of Go filepath.Rel on Linux: Clean both paths, return `.` on
equality, refuse mixed rooted-ness, scan off the common leading segments,
refuse a remaining `..` in the base, and rebuild `..` steps plus the
remaining target segments. -/
def goRelBase (base : Str) : Str :=
  if clean base = dotSeg then [] else clean base

def goRelCore (bs ts : List Str) : Option Str :=
  if (stripCommon bs ts).1.headD [] = ddSeg then none
  else
    some (List.intercalate (str "/")
      (List.replicate (stripCommon bs ts).1.length ddSeg ++ (stripCommon bs ts).2))

def goRel (base targ : Str) : Option Str :=
  if clean targ = clean base then some dotSeg
  else if hasLead (str "/") (goRelBase base) ≠ hasLead (str "/") (clean targ) then none
  else
    goRelCore (segsOfCleaned (hasLead (str "/") (goRelBase base)) (goRelBase base))
      (segsOfCleaned (hasLead (str "/") (clean targ)) (clean targ))

theorem segsOfCleaned_absOf {A : List Str} (h : goodSegs A) :
    segsOfCleaned true (absOf A) = A := by
  unfold segsOfCleaned
  simp only [if_true]
  by_cases hA : A = []
  · subst hA
    rw [if_pos (by decide)]
  · rw [if_neg (by
      intro hc
      exact hA ((absOf_eq_root_iff h).mp hc))]
    have : (absOf A).drop 1 = joinSegs A := by simp [absOf]
    rw [this]
    unfold joinSegs
    rw [str_slash]
    exact charSplit_intercalate '/' A hA (fun s hs => (h s hs).2.1)

theorem absOf_ne_dot (A : List Str) : absOf A ≠ dotSeg := by
  unfold absOf dotSeg
  intro h
  have := congrArg (fun l => List.headD l ' ') h
  simp [str] at this

/-- goRel on two absolute good-segment paths: `.` when equal, otherwise
`..` for each uncommon base segment followed by the uncommon target
segments. -/
theorem goRel_absOf {A T : List Str} (hA : goodSegs A) (hT : goodSegs T) :
    goRel (absOf A) (absOf T) =
      some (if A = T then dotSeg
        else joinSegs (List.replicate (A.length - commonLen A T) ddSeg ++
          T.drop (commonLen A T))) := by
  unfold goRel
  rw [clean_absOf hA, clean_absOf hT]
  have hbase : goRelBase (absOf A) = absOf A := by
    unfold goRelBase
    rw [clean_absOf hA, if_neg (absOf_ne_dot A)]
  by_cases heq : A = T
  · rw [if_pos (by rw [heq]), if_pos heq]
  · rw [if_neg (fun hc => heq (absOf_inj hT hA hc).symm), if_neg heq]
    rw [hbase]
    rw [hasLead_slash_absOf, hasLead_slash_absOf]
    rw [if_neg (by simp)]
    rw [segsOfCleaned_absOf hA, segsOfCleaned_absOf hT]
    unfold goRelCore
    rw [stripCommon_eq]
    have hhead : (A.drop (commonLen A T)).headD [] ≠ ddSeg := by
      cases hd : A.drop (commonLen A T) with
      | nil =>
        simp only [List.headD_nil]
        unfold ddSeg
        simp [str]
      | cons x xs =>
        simp only [List.headD_cons]
        have hx : x ∈ A := by
          have : x ∈ A.drop (commonLen A T) := by rw [hd]; simp
          exact List.mem_of_mem_drop this
        exact (hA x hx).2.2.2
    rw [if_neg hhead]
    rw [List.length_drop]
    rfl

def virtSep : Str := str "/__virtual__/"
def virtMark : Str := str "/__virtual__"
def vseg : Str := str "__virtual__"

/-- Model of Go strings.SplitN(s, slash, 3): at most three parts, with the
third carrying the un-split remainder.  Implemented by fully splitting and
re-joining everything from the third component on, which yields the same
parts. -/
def splitN3Slash (s : Str) : List Str :=
  match charSplit '/' s with
  | [a] => [a]
  | [a, b] => [a, b]
  | [a, b, c] => [a, b, c]
  | a :: b :: rest => [a, b, List.intercalate (str "/") rest]
  | [] => []

/-- Depth-and-subpath step of resolveVirtual, split out so the match chain
can be rewritten stepwise in proofs. -/
def resolveVirtualParts (p base : Str) : List Str → Str × Str × Str
  | [hash, nStr, subp] =>
    match goAtoi nStr with
    | none => (p, [], [])
    | some d =>
      if d < 0 then (p, [], [])
      else
        (if dirTimes d.toNat base = str "/" then '/' :: subp
         else goJoin [dirTimes d.toNat base, subp],
         hash, base ++ virtMark)
  | _ => (p, [], [])

/-- Embedding of resolveVirtual (pnpvfs, src/unnamed/part_002 lines 209-242):
find the first `/__virtual__/`, read hash, depth and subpath, apply
filepath.Dir depth times to the anchor and re-join; malformed paths are
returned untouched. -/
def resolveVirtual (p : Str) : Str × Str × Str :=
  match splitFirst virtSep p with
  | none => (p, [], [])
  | some (base, rest) => resolveVirtualParts p base (splitN3Slash rest)

theorem resolveVirtual_eq_some {p base rest : Str}
    (h : splitFirst virtSep p = some (base, rest)) :
    resolveVirtual p = resolveVirtualParts p base (splitN3Slash rest) := by
  unfold resolveVirtual
  rw [h]

theorem resolveVirtualParts_atoi {p base hash nStr subp : Str} {d : Int}
    (h : goAtoi nStr = some d) :
    resolveVirtualParts p base [hash, nStr, subp] =
      if d < 0 then (p, [], [])
      else
        (if dirTimes d.toNat base = str "/" then '/' :: subp
         else goJoin [dirTimes d.toNat base, subp],
         hash, base ++ virtMark) := by
  have hstep : resolveVirtualParts p base [hash, nStr, subp] =
      match goAtoi nStr with
      | none => (p, [], [])
      | some d =>
        if d < 0 then (p, [], [])
        else
          (if dirTimes d.toNat base = str "/" then '/' :: subp
           else goJoin [dirTimes d.toNat base, subp],
           hash, base ++ virtMark) := rfl
  rw [hstep, h]

/-- Leading-`..` counter of makeVirtualPath. -/
def leadDotsCount : List Str → Nat
  | s :: rest => if s = ddSeg then leadDotsCount rest + 1 else 0
  | [] => 0

/-- Embedding of makeVirtualPath (pnpvfs, src/unnamed/part_002 lines 244-264).
The Go code panics when filepath.Rel fails; the panic is modelled as `none`. -/
def makeVirtualPath (basePath hash targetPath : Str) : Option Str :=
  if basePath = [] ∨ hash = [] then some targetPath
  else
    match goRel (goDir basePath) targetPath with
    | none => none
    | some rel =>
      some (goJoin [basePath, hash,
        toDecimal (leadDotsCount (charSplit '/' rel)),
        List.intercalate (str "/")
          ((charSplit '/' rel).drop (leadDotsCount (charSplit '/' rel)))])

def wellFormedParts : List Str → Bool
  | [_, nStr, _] =>
    match goAtoi nStr with
    | none => false
    | some d => decide (0 ≤ d)
  | _ => false

/-- A path contains a well-formed `/__virtual__/hash/n/` region exactly when
resolveVirtual parses it: the claim's "well-formed" side condition. -/
def wellFormedVirt (p : Str) : Bool :=
  match splitFirst virtSep p with
  | none => false
  | some (_, rest) => wellFormedParts (splitN3Slash rest)

theorem wellFormedVirt_eq_some {p base rest : Str}
    (h : splitFirst virtSep p = some (base, rest)) :
    wellFormedVirt p = wellFormedParts (splitN3Slash rest) := by
  unfold wellFormedVirt
  rw [h]

theorem wellFormedParts_atoi {hash nStr subp : Str} {d : Int}
    (h : goAtoi nStr = some d) :
    wellFormedParts [hash, nStr, subp] = decide (0 ≤ d) := by
  have hstep : wellFormedParts [hash, nStr, subp] =
      match goAtoi nStr with
      | none => false
      | some d => decide (0 ≤ d) := rfl
  rw [hstep, h]

theorem virtSep_ne_nil : virtSep ≠ [] := by decide

theorem virtSep_dropLast : virtSep.dropLast = virtMark := by decide

theorem virtMark_eq : virtMark = '/' :: vseg := by decide

theorem virtSep_eq : virtSep = virtMark ++ ['/'] := by decide

theorem vseg_good : goodSeg vseg := by decide

theorem ddSeg_slash_free : '/' ∉ ddSeg := by decide

theorem ddSeg_ne_nil : ddSeg ≠ [] := by decide

theorem absOf_append_general {X Y : List Str} (hX : X ≠ []) (hY : Y ≠ []) :
    absOf (X ++ Y) = absOf X ++ '/' :: joinSegs Y := by
  unfold absOf
  rw [joinSegs_append hX hY]
  simp

theorem base_mark {A : List Str} (hA : A ≠ []) :
    absOf A ++ virtMark = absOf (A ++ [vseg]) := by
  rw [absOf_append_general hA (by simp : ([vseg] : List Str) ≠ [])]
  have hj : joinSegs [vseg] = vseg := intercalate_singleton _ _
  rw [hj, ← virtMark_eq]

theorem splitFirst_virt {A : List Str} (rest : Str)
    (hanch : containsSub virtSep (absOf A ++ virtMark) = false) :
    splitFirst virtSep (absOf A ++ virtMark ++ ('/' :: rest)) = some (absOf A, rest) := by
  have hshape : absOf A ++ virtMark ++ ('/' :: rest) = absOf A ++ (virtSep ++ rest) := by
    rw [virtSep_eq]
    simp [List.append_assoc]
  rw [hshape]
  apply splitFirst_append_of_not_contains virtSep_ne_nil
  rw [virtSep_dropLast]
  exact hanch

theorem charSplit_join_free {L : List Str} (hne : L ≠ [])
    (hfree : ∀ s ∈ L, '/' ∉ s) : charSplit '/' (joinSegs L) = L := by
  unfold joinSegs
  rw [str_slash]
  exact charSplit_intercalate '/' L hne hfree

theorem charSplit_absOf_free {L : List Str} (hne : L ≠ [])
    (hfree : ∀ s ∈ L, '/' ∉ s) : charSplit '/' (absOf L) = [] :: L := by
  unfold absOf
  rw [charSplit_cons, if_pos rfl]
  rw [charSplit_join_free hne hfree]

theorem splitN3_two {h d : Str} (hh : '/' ∉ h) (hd : '/' ∉ d) :
    splitN3Slash (joinSegs [h, d]) = [h, d] := by
  unfold splitN3Slash
  rw [charSplit_join_free (by simp) (by
    intro s hs
    simp only [List.mem_cons, List.mem_singleton, List.not_mem_nil, or_false] at hs
    rcases hs with hs | hs <;> subst hs <;> assumption)]

theorem splitN3_three {h d : Str} {M : List Str} (hM : M ≠ [])
    (hh : '/' ∉ h) (hd : '/' ∉ d) (hMf : ∀ s ∈ M, '/' ∉ s) :
    splitN3Slash (joinSegs ([h, d] ++ M)) = [h, d, joinSegs M] := by
  unfold splitN3Slash
  rw [charSplit_join_free (by simp) (by
    intro s hs
    simp only [List.cons_append, List.mem_cons] at hs
    rcases hs with hs | hs | hs
    · subst hs; assumption
    · subst hs; assumption
    · exact hMf s hs)]
  cases M with
  | nil => exact absurd rfl hM
  | cons m ms =>
    cases ms with
    | nil =>
      have hj : joinSegs [m] = m := intercalate_singleton _ _
      simp [hj]
    | cons m2 ms2 => rfl

theorem goodSeg_toDecimal (n : Nat) : goodSeg (toDecimal n) := by
  have hall := toDecimal_all_digits n
  refine ⟨toDecimal_ne_nil n, ?_, ?_, ?_⟩
  · intro hmem
    have := hall '/' hmem
    exact absurd this (by decide)
  · intro heq
    have hm : '.' ∈ toDecimal n := by rw [heq]; decide
    have := hall '.' hm
    exact absurd this (by decide)
  · intro heq
    have hm : '.' ∈ toDecimal n := by rw [heq]; decide
    have := hall '.' hm
    exact absurd this (by decide)

theorem leadDots_replicate {M : List Str} (n : Nat) (hM : ∀ s ∈ M, s ≠ ddSeg) :
    leadDotsCount (List.replicate n ddSeg ++ M) = n := by
  induction n with
  | zero =>
    simp only [List.replicate, List.nil_append]
    cases M with
    | nil => rfl
    | cons m ms =>
      unfold leadDotsCount
      rw [if_neg (hM m (by simp))]
  | succ k ih =>
    rw [List.replicate_succ, List.cons_append]
    unfold leadDotsCount
    rw [if_pos rfl, ih]

/-- Core computation: resolveVirtual on a canonically assembled virtual path
parses anchor, hash, depth and subpath and rebuilds the real path. -/
theorem resolveVirtual_formed {A M : List Str} {hash : Str} {n : Nat}
    (hA : goodSegs A) (hAne : A ≠ [])
    (hanch : containsSub virtSep (absOf A ++ virtMark) = false)
    (hh : goodSeg hash) (hM : goodSegs M) (hMne : M ≠ [])
    (hn : n ≤ A.length) (hbound : A.length < 2 ^ 63) :
    resolveVirtual (absOf A ++ virtMark ++ ('/' :: joinSegs ([hash, toDecimal n] ++ M))) =
      (absOf (A.take (A.length - n) ++ M), hash, absOf A ++ virtMark) ∧
    wellFormedVirt (absOf A ++ virtMark ++ ('/' :: joinSegs ([hash, toDecimal n] ++ M))) =
      true := by
  have hsf := splitFirst_virt (A := A) (joinSegs ([hash, toDecimal n] ++ M)) hanch
  have hs3 := splitN3_three hMne hh.2.1 (goodSeg_toDecimal n).2.1
    (fun s hs => (hM s hs).2.1)
  have hatoi : goAtoi (toDecimal n) = some ((n : Nat) : Int) :=
    goAtoi_toDecimal (by omega)
  have hneg : ¬ (((n : Nat) : Int) < 0) := by omega
  have htn : (((n : Nat) : Int)).toNat = n := rfl
  have hdir : dirTimes n (absOf A) = absOf (A.take (A.length - n)) :=
    dirTimes_absOf hA n hn
  constructor
  · rw [resolveVirtual_eq_some hsf, hs3, resolveVirtualParts_atoi hatoi]
    rw [if_neg hneg]
    rw [htn, hdir]
    by_cases hzero : A.length - n = 0
    · have htake : A.take (A.length - n) = [] := by rw [hzero]; simp
      rw [htake]
      rw [if_pos (by decide)]
      simp [absOf]
    · have htne : A.take (A.length - n) ≠ [] := by
        intro hc
        have := congrArg List.length hc
        rw [List.length_take] at this
        simp only [List.length_nil] at this
        have hmin : min (A.length - n) A.length = A.length - n :=
          Nat.min_eq_left (Nat.sub_le _ _)
        omega
      rw [if_neg (by
        intro hc
        exact htne ((absOf_eq_root_iff
          (goodSegs_sub hA (List.take_subset _ _))).mp hc))]
      rw [goJoin_abs (by
        intro s hs
        rw [List.mem_append] at hs
        rcases hs with hs | hs
        · exact hA s (List.take_subset _ _ hs)
        · exact hM s hs) htne]
  · rw [wellFormedVirt_eq_some hsf, hs3, wellFormedParts_atoi hatoi]
    simp only [decide_eq_true_eq]
    omega

theorem makeVirtualPath_eq_rel {basePath hash targetPath rel : Str}
    (hb : basePath ≠ []) (hh : hash ≠ [])
    (hrel : goRel (goDir basePath) targetPath = some rel) :
    makeVirtualPath basePath hash targetPath =
      some (goJoin [basePath, hash,
        toDecimal (leadDotsCount (charSplit '/' rel)),
        List.intercalate (str "/")
          ((charSplit '/' rel).drop (leadDotsCount (charSplit '/' rel)))]) := by
  unfold makeVirtualPath
  rw [if_neg (by simp [hb, hh]), hrel]

theorem goodSegs_snoc_vseg {A : List Str} (hA : goodSegs A) :
    goodSegs (A ++ [vseg]) := by
  intro s hs
  rw [List.mem_append] at hs
  rcases hs with hs | hs
  · exact hA s hs
  · simp only [List.mem_singleton] at hs
    subst hs
    exact vseg_good

theorem goDir_base {A : List Str} (hA : goodSegs A) (hAne : A ≠ []) :
    goDir (absOf A ++ virtMark) = absOf A := by
  rw [base_mark hAne]
  rw [goDir_absOf (goodSegs_snoc_vseg hA) (by simp)]
  rw [List.dropLast_concat]

/-- makeVirtualPath rebuilds the canonical virtual path from the anchor, hash,
depth and subpath produced by resolveVirtual, provided the depth does not
exceed the anchor and the subpath does not re-enter the stripped segments. -/
theorem makeVirtual_rebuild {A M : List Str} {hash : Str} {n : Nat}
    (hA : goodSegs A) (hAne : A ≠ [])
    (hh : goodSeg hash) (hM : goodSegs M) (hMne : M ≠ [])
    (hn : n ≤ A.length)
    (hclash : n = 0 ∨ (M.headD [] ≠ (A.drop (A.length - n)).headD [])) :
    makeVirtualPath (absOf A ++ virtMark) hash (absOf (A.take (A.length - n) ++ M)) =
      some (absOf A ++ virtMark ++ ('/' :: joinSegs ([hash, toDecimal n] ++ M))) := by
  have hbne : absOf A ++ virtMark ≠ [] := by simp [absOf]
  have hgdir := goDir_base hA hAne
  have htklen : (A.take (A.length - n)).length = A.length - n := by
    rw [List.length_take]
    exact Nat.min_eq_left (Nat.sub_le _ _)
  have hT'good : goodSegs (A.take (A.length - n) ++ M) := by
    intro s hs
    rw [List.mem_append] at hs
    rcases hs with hs | hs
    · exact hA s (List.take_subset _ _ hs)
    · exact hM s hs
  have hdropM : (A.take (A.length - n) ++ M).drop (A.length - n) = M := by
    have hdl := List.drop_left (A.take (A.length - n)) M
    rw [htklen] at hdl
    exact hdl
  have hATne : A ≠ A.take (A.length - n) ++ M := by
    intro heq
    rcases hclash with hz | hhead
    · subst hz
      rw [Nat.sub_zero, List.take_length] at heq
      have : A ++ M = A := heq.symm
      rw [List.append_right_eq_self] at this
      exact hMne this
    · have hdrop := congrArg (List.drop (A.length - n)) heq
      rw [hdropM] at hdrop
      rw [← hdrop] at hhead
      exact hhead rfl
  have hcommon : commonLen A (A.take (A.length - n) ++ M) = A.length - n := by
    have hzero : commonLen (A.drop (A.length - n)) M = 0 := by
      rcases hclash with hz | hhead
      · subst hz
        rw [Nat.sub_zero, List.drop_length]
        exact commonLen_nil_left M
      · cases hdA : A.drop (A.length - n) with
        | nil => rw [commonLen_nil_left]
        | cons a as =>
          cases hdM : M with
          | nil => rw [commonLen_nil_right]
          | cons m ms =>
            apply commonLen_zero_of_ne_head
            rw [hdA, hdM] at hhead
            simp only [List.headD_cons] at hhead
            intro hc
            exact hhead (hc.symm)
    have h1 := commonLen_append_left (A.take (A.length - n)) (A.drop (A.length - n)) M
    rw [List.take_append_drop] at h1
    rw [h1, htklen, hzero]
    omega
  have hrel : goRel (absOf A) (absOf (A.take (A.length - n) ++ M)) =
      some (joinSegs (List.replicate n ddSeg ++ M)) := by
    rw [goRel_absOf hA hT'good]
    rw [if_neg hATne]
    rw [hcommon, hdropM]
    have : A.length - (A.length - n) = n := by omega
    rw [this]
  rw [makeVirtualPath_eq_rel hbne hh.1 (by rw [hgdir]; exact hrel)]
  have hsplit : charSplit '/' (joinSegs (List.replicate n ddSeg ++ M)) =
      List.replicate n ddSeg ++ M := by
    apply charSplit_join_free
    · cases n with
      | zero => simpa using hMne
      | succ k => simp [List.replicate_succ]
    · intro s hs
      rw [List.mem_append] at hs
      rcases hs with hs | hs
      · rw [List.eq_of_mem_replicate hs]
        exact ddSeg_slash_free
      · exact (hM s hs).2.1
  rw [hsplit]
  have hlead : leadDotsCount (List.replicate n ddSeg ++ M) = n :=
    leadDots_replicate n (fun s hs => (hM s hs).2.2.2)
  rw [hlead]
  have hdropn : (List.replicate n ddSeg ++ M).drop n = M := by
    have hdl := List.drop_left (List.replicate n ddSeg) M
    rw [List.length_replicate] at hdl
    exact hdl
  rw [hdropn]
  have hjM : List.intercalate (str "/") M = joinSegs M := rfl
  rw [hjM]
  rw [base_mark hAne]
  rw [goJoin_abs_four (by
    intro s hs
    rcases List.mem_append.mp hs with hs1 | hsM
    · rcases List.mem_append.mp hs1 with hs2 | hs3
      · rcases List.mem_append.mp hs2 with hs4 | hs5
        · exact hA s hs4
        · rw [List.mem_singleton] at hs5
          subst hs5
          exact vseg_good
      · rcases List.mem_cons.mp hs3 with hs6 | hs7
        · subst hs6
          exact hh
        · rw [List.mem_singleton] at hs7
          subst hs7
          exact goodSeg_toDecimal n
    · exact hM s hsM) (by simp)]
  rw [List.append_assoc (A ++ [vseg])]
  rw [absOf_append_general (by simp : A ++ [vseg] ≠ []) (by simp)]

theorem absOf_virt_shape {A M2 : List Str} (hAne : A ≠ []) (hM2ne : M2 ≠ []) :
    absOf ((A ++ [vseg]) ++ M2) = absOf A ++ virtMark ++ ('/' :: joinSegs M2) := by
  rw [absOf_append_general (by simp : A ++ [vseg] ≠ []) hM2ne, ← base_mark hAne]

theorem wellFormed_two {A : List Str} {hash dec : Str}
    (hanch : containsSub virtSep (absOf A ++ virtMark) = false)
    (hh : '/' ∉ hash) (hd : '/' ∉ dec) :
    wellFormedVirt (absOf A ++ virtMark ++ ('/' :: joinSegs [hash, dec])) = false := by
  rw [wellFormedVirt_eq_some (splitFirst_virt _ hanch), splitN3_two hh hd]
  rfl

theorem goJoin_abs_dot {K : List Str} {h d : Str}
    (hgood : goodSegs (K ++ [h, d])) (hK : K ≠ []) :
    goJoin [absOf K, h, d, dotSeg] = absOf (K ++ [h, d]) := by
  have hgh : goodSeg h := hgood h (by simp)
  have hgd : goodSeg d := hgood d (by simp)
  unfold goJoin
  have hne : nonEmptyElems [absOf K, h, d, dotSeg] = [absOf K, h, d, dotSeg] := by
    simp [nonEmptyElems, List.filter, isEmpty_false_of_ne (absOf_ne_nil K),
      isEmpty_false_of_ne hgh.1, isEmpty_false_of_ne hgd.1,
      isEmpty_false_of_ne (show dotSeg ≠ [] by decide)]
  rw [hne, if_neg (by simp)]
  rw [intercalate_cons_cons, intercalate_cons_cons, intercalate_cons_cons,
    intercalate_singleton]
  have hseg2 : joinSegs [h, d] = h ++ '/' :: d := by
    unfold joinSegs
    rw [intercalate_cons_cons, intercalate_singleton]
    simp [str_slash]
  have hcat : absOf K ++ str "/" ++ (h ++ str "/" ++ (d ++ str "/" ++ dotSeg)) =
      absOf ((K ++ [h, d]) ++ [dotSeg]) := by
    rw [absOf_append_general (by simp [hK]) (by simp : ([dotSeg] : List Str) ≠ [])]
    have hjd : joinSegs [dotSeg] = dotSeg := intercalate_singleton _ _
    rw [hjd]
    rw [absOf_append_general hK (by simp : ([h, d] : List Str) ≠ [])]
    rw [hseg2]
    simp [str_slash, List.append_assoc]
  rw [hcat]
  unfold clean
  rw [if_neg (absOf_ne_nil _)]
  rw [hasLead_slash_absOf]
  simp only [if_true]
  rw [charSplit_absOf_free (by simp [hK]) (by
    intro s hs
    rcases List.mem_append.mp hs with hs1 | hs2
    · exact (hgood s hs1).2.1
    · rw [List.mem_singleton] at hs2
      subst hs2
      decide)]
  rw [cleanLoop_skip_nil]
  rw [cleanLoop_append_good true (K ++ [h, d]) hgood [dotSeg] []]
  rw [cleanLoop_cons]
  rw [if_pos (Or.inr rfl), cleanLoop_nil]
  simp [absOf, joinSegs]

/-- Forward direction of the amended round trip: any well-formed path built by
makeVirtualPath from a canonical virtual base resolves back to the target and
the hash. -/
theorem makeVirtual_parse {A T : List Str} {hash p : Str}
    (hA : goodSegs A) (hAne : A ≠ [])
    (hanch : containsSub virtSep (absOf A ++ virtMark) = false)
    (hh : goodSeg hash) (hT : goodSegs T) (hbound : A.length < 2 ^ 63)
    (hmk : makeVirtualPath (absOf A ++ virtMark) hash (absOf T) = some p)
    (hwf : wellFormedVirt p = true) :
    resolveVirtual p = (absOf T, hash, absOf A ++ virtMark) := by
  have hbne : absOf A ++ virtMark ≠ [] := by simp [absOf]
  have hgdir := goDir_base hA hAne
  have hKgood : goodSegs (A ++ [vseg]) := goodSegs_snoc_vseg hA
  by_cases heq : A = T
  · have hrel : goRel (goDir (absOf A ++ virtMark)) (absOf T) = some dotSeg := by
      rw [hgdir, goRel_absOf hA hT, if_pos heq]
    rw [makeVirtualPath_eq_rel hbne hh.1 hrel] at hmk
    have hcs : charSplit '/' dotSeg = [dotSeg] := by decide
    have hld : leadDotsCount [dotSeg] = 0 := by decide
    rw [hcs, hld] at hmk
    simp only [List.drop_zero] at hmk
    rw [intercalate_singleton] at hmk
    rw [base_mark hAne] at hmk
    rw [goJoin_abs_dot (by
      intro s hs
      rcases List.mem_append.mp hs with hs1 | hs2
      · exact hKgood s hs1
      · rcases List.mem_cons.mp hs2 with hs3 | hs4
        · subst hs3; exact hh
        · rw [List.mem_singleton] at hs4
          subst hs4
          exact goodSeg_toDecimal 0) (by simp)] at hmk
    rw [absOf_virt_shape hAne (by simp)] at hmk
    have hp : p = absOf A ++ virtMark ++ ('/' :: joinSegs [hash, toDecimal 0]) := by
      injection hmk.symm
    rw [hp, wellFormed_two hanch hh.2.1 (goodSeg_toDecimal 0).2.1] at hwf
    exact absurd hwf (by simp)
  · have hcle : commonLen A T ≤ A.length := commonLen_le_left A T
    have hclT : commonLen A T ≤ T.length := commonLen_le_right A T
    have hrel : goRel (goDir (absOf A ++ virtMark)) (absOf T) =
        some (joinSegs (List.replicate (A.length - commonLen A T) ddSeg ++
          T.drop (commonLen A T))) := by
      rw [hgdir, goRel_absOf hA hT, if_neg heq]
    rw [makeVirtualPath_eq_rel hbne hh.1 hrel] at hmk
    by_cases hsub : T.drop (commonLen A T) = []
    · -- T is a proper telescope of A: makeVirtualPath emits no subpath and the
      -- result is not well-formed, contradicting hwf
      have hceq : commonLen A T = T.length := by
        have := congrArg List.length hsub
        rw [List.length_drop] at this
        simp only [List.length_nil] at this
        omega
      have hclt : commonLen A T < A.length := by
        rcases Nat.lt_or_ge (commonLen A T) A.length with hlt | hge
        · exact hlt
        · exfalso
          have hceqA : commonLen A T = A.length := le_antisymm hcle hge
          have htakes := commonLen_take A T
          rw [hceqA, List.take_length] at htakes
          have hlen : A.length = T.length := by omega
          rw [hlen, List.take_length] at htakes
          exact heq htakes
      have hmne : A.length - commonLen A T ≠ 0 := by omega
      rw [hsub, List.append_nil] at hmk
      have hcsrep : charSplit '/' (joinSegs (List.replicate
          (A.length - commonLen A T) ddSeg)) =
          List.replicate (A.length - commonLen A T) ddSeg := by
        apply charSplit_join_free
        · intro hc
          have := congrArg List.length hc
          rw [List.length_replicate] at this
          simp only [List.length_nil] at this
          exact hmne this
        · intro s hs
          rw [List.eq_of_mem_replicate hs]
          exact ddSeg_slash_free
      rw [hcsrep] at hmk
      have hldrep : leadDotsCount (List.replicate (A.length - commonLen A T) ddSeg) =
          A.length - commonLen A T := by
        have := leadDots_replicate (M := []) (A.length - commonLen A T) (by simp)
        rw [List.append_nil] at this
        exact this
      rw [hldrep] at hmk
      have hdroprep : (List.replicate (A.length - commonLen A T) ddSeg).drop
          (A.length - commonLen A T) = [] := by
        have hdl := List.drop_length (List.replicate (A.length - commonLen A T) ddSeg)
        rw [List.length_replicate] at hdl
        exact hdl
      rw [hdroprep] at hmk
      have hint0 : List.intercalate (str "/") ([] : List Str) = [] := rfl
      rw [hint0] at hmk
      rw [base_mark hAne] at hmk
      have h4 := goJoin_abs_four (K := A ++ [vseg]) (h := hash)
        (d := toDecimal (A.length - commonLen A T)) (M := []) (by
          intro s hs
          rcases List.mem_append.mp hs with hs1 | hs2
          · rcases List.mem_append.mp hs1 with hs3 | hs4
            · exact hKgood s hs3
            · rcases List.mem_cons.mp hs4 with hs5 | hs6
              · subst hs5; exact hh
              · rw [List.mem_singleton] at hs6
                subst hs6
                exact goodSeg_toDecimal _
          · exact absurd hs2 (List.not_mem_nil s)) (by simp)
      have hj0 : joinSegs ([] : List Str) = [] := rfl
      rw [hj0, List.append_nil] at h4
      rw [h4] at hmk
      rw [absOf_virt_shape hAne (by simp)] at hmk
      have hp : p = absOf A ++ virtMark ++
          ('/' :: joinSegs [hash, toDecimal (A.length - commonLen A T)]) := by
        injection hmk.symm
      rw [hp, wellFormed_two hanch hh.2.1 (goodSeg_toDecimal _).2.1] at hwf
      exact absurd hwf (by simp)
    · -- main case: a nonempty subpath remains
      have hMgood : goodSegs (T.drop (commonLen A T)) :=
        goodSegs_sub hT (List.drop_subset _ _)
      have hcsrep : charSplit '/' (joinSegs (List.replicate
          (A.length - commonLen A T) ddSeg ++ T.drop (commonLen A T))) =
          List.replicate (A.length - commonLen A T) ddSeg ++
            T.drop (commonLen A T) := by
        apply charSplit_join_free
        · simp [hsub]
        · intro s hs
          rcases List.mem_append.mp hs with hs1 | hs2
          · rw [List.eq_of_mem_replicate hs1]
            exact ddSeg_slash_free
          · exact (hMgood s hs2).2.1
      rw [hcsrep] at hmk
      have hldrep : leadDotsCount (List.replicate (A.length - commonLen A T) ddSeg ++
          T.drop (commonLen A T)) = A.length - commonLen A T :=
        leadDots_replicate _ (fun s hs => (hMgood s hs).2.2.2)
      rw [hldrep] at hmk
      have hdroprep : (List.replicate (A.length - commonLen A T) ddSeg ++
          T.drop (commonLen A T)).drop (A.length - commonLen A T) =
          T.drop (commonLen A T) := by
        have hdl := List.drop_left (List.replicate (A.length - commonLen A T) ddSeg)
          (T.drop (commonLen A T))
        rw [List.length_replicate] at hdl
        exact hdl
      rw [hdroprep] at hmk
      have hjint : List.intercalate (str "/") (T.drop (commonLen A T)) =
          joinSegs (T.drop (commonLen A T)) := rfl
      rw [hjint] at hmk
      rw [base_mark hAne] at hmk
      rw [goJoin_abs_four (by
        intro s hs
        rcases List.mem_append.mp hs with hs1 | hs2
        · rcases List.mem_append.mp hs1 with hs3 | hs4
          · exact hKgood s hs3
          · rcases List.mem_cons.mp hs4 with hs5 | hs6
            · subst hs5; exact hh
            · rw [List.mem_singleton] at hs6
              subst hs6
              exact goodSeg_toDecimal _
        · exact hMgood s hs2) (by simp)] at hmk
      rw [List.append_assoc (A ++ [vseg])] at hmk
      rw [absOf_virt_shape hAne (by simp)] at hmk
      have hp : p = absOf A ++ virtMark ++ ('/' :: joinSegs
          (([hash, toDecimal (A.length - commonLen A T)] : List Str) ++
            T.drop (commonLen A T))) := by
        injection hmk.symm
      have hres := resolveVirtual_formed (n := A.length - commonLen A T)
        hA hAne hanch hh hMgood hsub (Nat.sub_le _ _) hbound
      rw [hp]
      rw [hres.1]
      have hback : A.length - (A.length - commonLen A T) = commonLen A T := by
        omega
      rw [hback]
      have htakes := commonLen_take A T
      rw [htakes, List.take_append_drop]

/-- Claim C1 counterexample: the stated round trip fails on the code.
With the well-formed path `/a/__virtual__/h/00/x` (depth written `00`, which
strconv.Atoi accepts), resolveVirtual strips the virtual region but
makeVirtualPath rebuilds the canonical `/a/__virtual__/h/0/x`, not the
original path.  And for basePath `/x/__virtual__/q` with hash `5` (non-empty,
as the claim requires), makeVirtualPath produces the well-formed path
`/x/__virtual__/q/5/2/deep` which resolveVirtual parses at the earlier
`/__virtual__/` occurrence, returning realPath `/2/deep` and hash `q` instead
of `/deep` and `5`. -/
theorem resolveVirtual_roundTrip_counterexample :
    wellFormedVirt (str "/a/__virtual__/h/00/x") = true ∧
    resolveVirtual (str "/a/__virtual__/h/00/x") =
      (str "/a/x", str "h", str "/a/__virtual__") ∧
    makeVirtualPath (str "/a/__virtual__") (str "h") (str "/a/x") =
      some (str "/a/__virtual__/h/0/x") ∧
    str "/a/__virtual__/h/0/x" ≠ str "/a/__virtual__/h/00/x" ∧
    makeVirtualPath (str "/x/__virtual__/q") (str "5") (str "/deep") =
      some (str "/x/__virtual__/q/5/2/deep") ∧
    wellFormedVirt (str "/x/__virtual__/q/5/2/deep") = true ∧
    resolveVirtual (str "/x/__virtual__/q/5/2/deep") =
      (str "/2/deep", str "q", str "/x/__virtual__") ∧
    str "/2/deep" ≠ str "/deep" ∧ str "q" ≠ str "5" := by
  decide

/-- Claim C1 (amended): virtual-path rewriting round-trips for canonical
virtual paths.  Forward: for a base of the form `anchor ++ "/__virtual__"`
where the anchor is an absolute clean path with no earlier `/__virtual__/`
occurrence, a non-empty slash-free hash, and an absolute clean target, every
well-formed `p = makeVirtualPath(base, hash, t)` satisfies
`resolveVirtual p = (t, hash, base)`.  Backward: a virtual path assembled from
such an anchor, hash, a canonically written depth `n` not exceeding the
anchor depth, and a non-empty clean subpath that does not re-enter the
stripped anchor segment, is well-formed, resolves to the n-th parent of the
anchor joined with the subpath, and is rebuilt verbatim by makeVirtualPath. -/
theorem pnpvfs_virtualPath_roundTrip_amended :
    (∀ A T hash p, goodSegs A → A ≠ [] →
      containsSub virtSep (absOf A ++ virtMark) = false →
      goodSeg hash → goodSegs T → A.length < 2 ^ 63 →
      makeVirtualPath (absOf A ++ virtMark) hash (absOf T) = some p →
      wellFormedVirt p = true →
      resolveVirtual p = (absOf T, hash, absOf A ++ virtMark)) ∧
    (∀ A M hash n, goodSegs A → A ≠ [] →
      containsSub virtSep (absOf A ++ virtMark) = false →
      goodSeg hash → goodSegs M → M ≠ [] →
      n ≤ A.length → A.length < 2 ^ 63 →
      (n = 0 ∨ M.headD [] ≠ (A.drop (A.length - n)).headD []) →
      wellFormedVirt (absOf A ++ virtMark ++
        ('/' :: joinSegs ([hash, toDecimal n] ++ M))) = true ∧
      resolveVirtual (absOf A ++ virtMark ++
        ('/' :: joinSegs ([hash, toDecimal n] ++ M))) =
        (absOf (A.take (A.length - n) ++ M), hash, absOf A ++ virtMark) ∧
      makeVirtualPath (absOf A ++ virtMark) hash
        (absOf (A.take (A.length - n) ++ M)) =
        some (absOf A ++ virtMark ++
          ('/' :: joinSegs ([hash, toDecimal n] ++ M)))) := by
  constructor
  · intro A T hash p hA hAne hanch hh hT hbound hmk hwf
    exact makeVirtual_parse hA hAne hanch hh hT hbound hmk hwf
  · intro A M hash n hA hAne hanch hh hM hMne hn hbound hclash
    have hres := resolveVirtual_formed hA hAne hanch hh hM hMne hn hbound
    exact ⟨hres.2, hres.1, makeVirtual_rebuild hA hAne hh hM hMne hn hclash⟩

/-- Claim C1 witness: the amended round trip at the spec's own example S5,
`/a/b/__virtual__/abc/2/x/y.js`, in both directions. -/
theorem pnpvfs_virtualPath_roundTrip_amended_witness :
    (resolveVirtual (str "/a/b/__virtual__/abc/2/x/y.js") =
      (absOf [str "x", str "y.js"], str "abc",
        absOf [str "a", str "b"] ++ virtMark)) ∧
    (wellFormedVirt (absOf [str "a", str "b"] ++ virtMark ++
        ('/' :: joinSegs ([str "abc", toDecimal 2] ++ [str "x", str "y.js"]))) = true ∧
      resolveVirtual (absOf [str "a", str "b"] ++ virtMark ++
        ('/' :: joinSegs ([str "abc", toDecimal 2] ++ [str "x", str "y.js"]))) =
        (absOf (List.take ([str "a", str "b"].length - 2) [str "a", str "b"] ++
          [str "x", str "y.js"]), str "abc", absOf [str "a", str "b"] ++ virtMark) ∧
      makeVirtualPath (absOf [str "a", str "b"] ++ virtMark) (str "abc")
        (absOf (List.take ([str "a", str "b"].length - 2) [str "a", str "b"] ++
          [str "x", str "y.js"])) =
        some (absOf [str "a", str "b"] ++ virtMark ++
          ('/' :: joinSegs ([str "abc", toDecimal 2] ++ [str "x", str "y.js"])))) :=
  ⟨pnpvfs_virtualPath_roundTrip_amended.1 [str "a", str "b"] [str "x", str "y.js"]
      (str "abc") (str "/a/b/__virtual__/abc/2/x/y.js") (by decide) (by decide)
      (by decide) (by decide) (by decide) (by decide) (by decide) (by decide),
    pnpvfs_virtualPath_roundTrip_amended.2 [str "a", str "b"] [str "x", str "y.js"]
      (str "abc") 2 (by decide) (by decide) (by decide) (by decide) (by decide)
      (by decide) (by decide) (by decide) (by decide)⟩

/-- Embedding of splitZipPath (pnpvfs, src/unnamed/part_002 lines 143-149 and
zipvfs): split on `.zip/`, keep the first part plus the `.zip` suffix as the
archive path and `/` plus the SECOND part as the internal path. -/
def splitZipPath (p : Str) : Str × Str :=
  match splitOnSub (str ".zip/") p with
  | p0 :: p1 :: _ => (p0 ++ str ".zip", '/' :: p1)
  | _ => (p, str "/")

theorem splitOnSubAux_ne_nil (sep : Str) (fuel : Nat) (s : Str) :
    splitOnSubAux sep fuel s ≠ [] := by
  cases fuel with
  | zero => simp [splitOnSubAux]
  | succ f =>
    unfold splitOnSubAux
    cases hsf : splitFirst sep s with
    | none => simp
    | some pr => cases pr with
      | mk pre post => simp

theorem splitOnSub_ne_nil (sep s : Str) : splitOnSub sep s ≠ [] := by
  unfold splitOnSub
  by_cases hsep : sep = []
  · simp [hsep]
  · rw [if_neg hsep]
    exact splitOnSubAux_ne_nil sep s.length s

theorem splitOnSub_no_occurrence {sep s : Str}
    (h : containsSub sep s = false) (hsep : sep ≠ []) :
    splitOnSub sep s = [s] := by
  unfold splitOnSub
  rw [if_neg hsep]
  cases hl : s.length with
  | zero => simp [splitOnSubAux]
  | succ n =>
    unfold splitOnSubAux
    rw [splitFirst_none_of_not_contains h]

/-- Splitting a string whose first `sep` occurrence is explicit peels off the
leading part and recurses on the remainder. -/
theorem splitOnSub_decomp {sep pre post : Str} (hsep : sep ≠ [])
    (h : containsSub sep (pre ++ sep.dropLast) = false) :
    splitOnSub sep (pre ++ (sep ++ post)) = pre :: splitOnSub sep post := by
  unfold splitOnSub
  rw [if_neg hsep, if_neg hsep]
  have hsf := splitFirst_append_of_not_contains (r := post) hsep h
  have hlen : (pre ++ (sep ++ post)).length = pre.length + sep.length + post.length := by
    simp [List.length_append]
    omega
  have hpos : 1 ≤ sep.length := List.length_pos.mpr hsep
  cases hl : (pre ++ (sep ++ post)).length with
  | zero =>
    exfalso
    omega
  | succ n =>
    have hstep : splitOnSubAux sep (n + 1) (pre ++ (sep ++ post)) =
        match splitFirst sep (pre ++ (sep ++ post)) with
        | none => [pre ++ (sep ++ post)]
        | some (pre2, post2) => pre2 :: splitOnSubAux sep n post2 := rfl
    rw [hstep, hsf]
    show pre :: splitOnSubAux sep n post = pre :: splitOnSubAux sep post.length post
    rw [splitOnSubAux_fuel hsep n post.length post (by omega) (le_refl _)]

/-- Claim C5 counterexample: on `/a.zip/b.zip/c` the code returns internal
path `/b`, not the entire remainder `/b.zip/c` the claim asserts: everything
after the second `.zip/` occurrence is dropped. -/
theorem splitZipPath_counterexample :
    splitZipPath (str "/a.zip/b.zip/c") = (str "/a.zip", str "/b") ∧
    splitZipPath (str "/a.zip/b.zip/c") ≠ (str "/a.zip", str "/b.zip/c") := by
  decide

/-- Claim C5 (amended): splitZipPath splits on the first `.zip/` occurrence;
the archive portion is the prefix up to and including that `.zip`; the
internal portion is `/` followed by the remainder TRUNCATED at the next
`.zip/` occurrence (so `/a.zip/b.zip/c` yields `(/a.zip, /b)`); if the path
has no `.zip/` occurrence the result is the path itself with internal
portion `/`. -/
theorem splitZipPath_first_occurrence :
    (∀ p, containsSub (str ".zip/") p = false → splitZipPath p = (p, str "/")) ∧
    (∀ pre post, containsSub (str ".zip/") (pre ++ str ".zip") = false →
      splitZipPath (pre ++ (str ".zip/" ++ post)) =
        (pre ++ str ".zip",
         '/' :: (splitOnSub (str ".zip/") post).headD post)) := by
  constructor
  · intro p h
    unfold splitZipPath
    rw [splitOnSub_no_occurrence h (by decide)]
  · intro pre post h
    unfold splitZipPath
    have hdl : (str ".zip/").dropLast = str ".zip" := by decide
    rw [splitOnSub_decomp (by decide) (by rw [hdl]; exact h)]
    cases hs : splitOnSub (str ".zip/") post with
    | nil => exact absurd hs (splitOnSub_ne_nil _ _)
    | cons q qs => rw [List.headD_cons]

/-- Claim C5 witness: the amended characterization at `/a.zip/b/c` (single
occurrence) and at the no-occurrence path `/plain/file.ts`. -/
theorem splitZipPath_first_occurrence_witness :
    splitZipPath (str "/plain/file.ts") = (str "/plain/file.ts", str "/") ∧
    splitZipPath (str "/a" ++ (str ".zip/" ++ str "b/c")) =
      (str "/a" ++ str ".zip",
       '/' :: (splitOnSub (str ".zip/") (str "b/c")).headD (str "b/c")) :=
  ⟨splitZipPath_first_occurrence.1 (str "/plain/file.ts") (by decide),
   splitZipPath_first_occurrence.2 (str "/a") (str "b/c") (by decide)⟩

/-- Ident through the second slash (scoped case of ParseBareIdentifier). -/
def identOfAt (s : Str) (firstSlash : Nat) : Str :=
  match charIndex '/' (s.drop (firstSlash + 1)) with
  | none => s
  | some secondSlash => s.take (firstSlash + 1 + secondSlash)

/-- Ident up to the first slash (unscoped case of ParseBareIdentifier). -/
def identBare (s : Str) : Str :=
  match charIndex '/' s with
  | none => s
  | some firstSlash => s.take firstSlash

/-- Embedding of PnpApi.ParseBareIdentifier (src/internal/pnp/pnpapi.go lines
212-244): empty specifiers fail; a leading `@` requires a slash and the ident
runs through the second slash (or the whole string); otherwise the ident runs
to the first slash; the module path is the remainder. -/
def parseBareIdentifier (specifier : Str) : Except Str (Str × Str) :=
  match specifier with
  | [] => .error (str "Empty specifier: ")
  | c :: rest =>
    if c = '@' then
      match charIndex '/' (c :: rest) with
      | none => .error (str "Invalid specifier: " ++ (c :: rest))
      | some firstSlash =>
        .ok (identOfAt (c :: rest) firstSlash,
          (c :: rest).drop (identOfAt (c :: rest) firstSlash).length)
    else
      .ok (identBare (c :: rest), (c :: rest).drop (identBare (c :: rest)).length)

/-- A legal bare identifier: either an unscoped name (nonempty, not starting
with `@`, slash-free) or `@scope/name` with slash-free scope and name. -/
def LegalIdent (i : Str) : Prop :=
  (i ≠ [] ∧ i.headD ' ' ≠ '@' ∧ '/' ∉ i) ∨
  (∃ scope nm, i = '@' :: (scope ++ '/' :: nm) ∧ '/' ∉ scope ∧ '/' ∉ nm)

/-- A legal subpath: empty, or starting with a slash. -/
def LegalSubpath (sub : Str) : Prop := sub = [] ∨ ∃ r, sub = '/' :: r

instance {ε α : Type} [DecidableEq ε] [DecidableEq α] :
    DecidableEq (Except ε α) := fun a b =>
  match a, b with
  | .error e1, .error e2 =>
    if h : e1 = e2 then isTrue (by rw [h])
    else isFalse (fun hc => by
      injection hc with h2
      exact h h2)
  | .ok v1, .ok v2 =>
    if h : v1 = v2 then isTrue (by rw [h])
    else isFalse (fun hc => by
      injection hc with h2
      exact h h2)
  | .error _, .ok _ => isFalse (fun hc => Except.noConfusion hc)
  | .ok _, .error _ => isFalse (fun hc => Except.noConfusion hc)

theorem charIndex_cons (c d : Char) (t : Str) :
    charIndex c (d :: t) =
      if d = c then some 0 else (charIndex c t).map (· + 1) := rfl

theorem charIndex_cons_ne {c d : Char} (t : Str) (h : d ≠ c) :
    charIndex c (d :: t) = (charIndex c t).map (· + 1) := by
  rw [charIndex_cons, if_neg h]

theorem parseBare_cons (c : Char) (rest : Str) :
    parseBareIdentifier (c :: rest) =
      if c = '@' then
        match charIndex '/' (c :: rest) with
        | none => .error (str "Invalid specifier: " ++ (c :: rest))
        | some firstSlash =>
          .ok (identOfAt (c :: rest) firstSlash,
            (c :: rest).drop (identOfAt (c :: rest) firstSlash).length)
      else
        .ok (identBare (c :: rest),
          (c :: rest).drop (identBare (c :: rest)).length) := rfl

theorem parseBare_scoped {c : Char} {rest : Str} {fs : Nat} (hc : c = '@')
    (h : charIndex '/' (c :: rest) = some fs) :
    parseBareIdentifier (c :: rest) =
      .ok (identOfAt (c :: rest) fs,
        (c :: rest).drop (identOfAt (c :: rest) fs).length) := by
  rw [parseBare_cons, if_pos hc, h]

theorem parseBare_scoped_none {c : Char} {rest : Str} (hc : c = '@')
    (h : charIndex '/' (c :: rest) = none) :
    parseBareIdentifier (c :: rest) =
      .error (str "Invalid specifier: " ++ (c :: rest)) := by
  rw [parseBare_cons, if_pos hc, h]

theorem identBare_none {s : Str} (h : charIndex '/' s = none) :
    identBare s = s := by
  unfold identBare
  rw [h]

theorem identBare_some {s : Str} {i : Nat} (h : charIndex '/' s = some i) :
    identBare s = s.take i := by
  unfold identBare
  rw [h]

theorem identOfAt_none {s : Str} {fs : Nat}
    (h : charIndex '/' (s.drop (fs + 1)) = none) : identOfAt s fs = s := by
  unfold identOfAt
  rw [h]

theorem identOfAt_some {s : Str} {fs ss : Nat}
    (h : charIndex '/' (s.drop (fs + 1)) = some ss) :
    identOfAt s fs = s.take (fs + 1 + ss) := by
  unfold identOfAt
  rw [h]

/-- Claim C6: ParseBareIdentifier satisfies the parsing contract: the empty
specifier and a lone `@scope` fail; the enumerated examples parse as the spec
states; and parsing is left inverse to concatenation on legal
(ident, subpath) pairs. -/
theorem ParseBareIdentifier_contract :
    (parseBareIdentifier (str "") = .error (str "Empty specifier: ")) ∧
    (∀ t : Str, '/' ∉ t → parseBareIdentifier ('@' :: t) =
      .error (str "Invalid specifier: " ++ ('@' :: t))) ∧
    (parseBareIdentifier (str "@scope/name") = .ok (str "@scope/name", str "")) ∧
    (parseBareIdentifier (str "@scope/name/x/y") =
      .ok (str "@scope/name", str "/x/y")) ∧
    (parseBareIdentifier (str "foo/bar") = .ok (str "foo", str "/bar")) ∧
    (∀ ident sub, LegalIdent ident → LegalSubpath sub →
      parseBareIdentifier (ident ++ sub) = .ok (ident, sub)) := by
  refine ⟨by decide, ?_, by decide, by decide, by decide, ?_⟩
  · intro t ht
    have hnm : '/' ∉ ('@' :: t) := by
      intro hmem
      rcases List.mem_cons.mp hmem with hc | hc
      · exact absurd hc (by decide)
      · exact ht hc
    exact parseBare_scoped_none rfl (charIndex_not_mem hnm)
  · intro ident sub hI hS
    rcases hI with ⟨hne, hhead, hfree⟩ | ⟨scope, nm, hid, hsc, hnm⟩
    · -- unscoped ident
      rcases List.exists_cons_of_ne_nil hne with ⟨c, t, rfl⟩
      have hc : c ≠ '@' := by simpa using hhead
      have htfree : '/' ∉ t := fun hmem => hfree (by simp [hmem])
      rcases hS with rfl | ⟨r, rfl⟩
      · rw [List.append_nil, parseBare_cons, if_neg hc]
        rw [identBare_none (charIndex_not_mem hfree)]
        rw [List.drop_length]
      · have hshape : (c :: t) ++ '/' :: r = c :: (t ++ '/' :: r) := rfl
        rw [hshape, parseBare_cons, if_neg hc]
        have hidx : charIndex '/' (c :: (t ++ '/' :: r)) = some (c :: t).length := by
          rw [← hshape]
          exact charIndex_append_first r hfree
        rw [identBare_some hidx]
        have htake : (c :: (t ++ '/' :: r)).take (c :: t).length = c :: t := by
          rw [← hshape]
          exact List.take_left (c :: t) ('/' :: r)
        rw [htake]
        have hdrop : (c :: (t ++ '/' :: r)).drop (c :: t).length = '/' :: r := by
          rw [← hshape]
          exact List.drop_left (c :: t) ('/' :: r)
        rw [hdrop]
    · -- scoped ident
      subst hid
      have hshape : ('@' :: (scope ++ '/' :: nm)) ++ sub =
          '@' :: (scope ++ '/' :: (nm ++ sub)) := by
        simp [List.append_assoc]
      rw [hshape]
      have hfs : charIndex '/' ('@' :: (scope ++ '/' :: (nm ++ sub))) =
          some (scope.length + 1) := by
        rw [charIndex_cons_ne _ (by decide)]
        rw [charIndex_append_first (nm ++ sub) hsc]
        rfl
      rw [parseBare_scoped rfl hfs]
      have hdrop2 : ('@' :: (scope ++ '/' :: (nm ++ sub))).drop
          (scope.length + 1 + 1) = nm ++ sub := by
        have h1 : scope.length + 1 + 1 = (scope.length + 1) + 1 := rfl
        rw [h1, List.drop_succ_cons]
        have e : scope ++ '/' :: (nm ++ sub) = (scope ++ ['/']) ++ (nm ++ sub) := by
          simp
        rw [e]
        have hl : scope.length + 1 = (scope ++ ['/']).length := by simp
        rw [hl]
        exact List.drop_left _ _
      rcases hS with rfl | ⟨r, rfl⟩
      · rw [List.append_nil] at hdrop2 ⊢
        rw [identOfAt_none (by rw [hdrop2]; exact charIndex_not_mem hnm)]
        rw [List.drop_length]
      · have hidx2 : charIndex '/' (('@' :: (scope ++ '/' :: (nm ++ '/' :: r))).drop
            (scope.length + 1 + 1)) = some nm.length := by
          rw [hdrop2]
          exact charIndex_append_first r hnm
        rw [identOfAt_some hidx2]
        have hlen : scope.length + 1 + 1 + nm.length =
            ('@' :: (scope ++ '/' :: nm)).length := by
          simp [List.length_append]
          omega
        rw [hlen]
        have htake : ('@' :: (scope ++ '/' :: (nm ++ '/' :: r))).take
            ('@' :: (scope ++ '/' :: nm)).length = '@' :: (scope ++ '/' :: nm) := by
          rw [← hshape]
          exact List.take_left _ _
        rw [htake]
        have hdrop3 : ('@' :: (scope ++ '/' :: (nm ++ '/' :: r))).drop
            ('@' :: (scope ++ '/' :: nm)).length = '/' :: r := by
          rw [← hshape]
          exact List.drop_left _ _
        rw [hdrop3]

/-- Claim C6 witness: the inverse law at the scoped pair
`("@s/n", "/lib/i.js")` and the bare pair `("foo", "")`, and the lone-scope
failure at `@solo`. -/
theorem ParseBareIdentifier_contract_witness :
    parseBareIdentifier (str "@s/n" ++ str "/lib/i.js") =
      .ok (str "@s/n", str "/lib/i.js") ∧
    parseBareIdentifier (str "foo" ++ str "") = .ok (str "foo", str "") ∧
    parseBareIdentifier ('@' :: str "solo") =
      .error (str "Invalid specifier: " ++ ('@' :: str "solo")) :=
  ⟨ParseBareIdentifier_contract.2.2.2.2.2 (str "@s/n") (str "/lib/i.js")
      (Or.inr ⟨str "s", str "n", by decide, by decide, by decide⟩)
      (Or.inr ⟨str "lib/i.js", by decide⟩),
   ParseBareIdentifier_contract.2.2.2.2.2 (str "foo") (str "")
      (Or.inl ⟨by decide, by decide, by decide⟩) (Or.inl rfl),
   ParseBareIdentifier_contract.2.1 (str "solo") (by decide)⟩

/-! ### FindLocator (src/internal/pnp/pnpapi.go lines 145-186) -/

/-- The package-registry trie: each node optionally carries package data
(ident, reference) and has children keyed by path segment (the Go map
childrenPathSegments, modeled as an association list). -/
inductive PnpTrie where
  | node : Option (Str × Str) → List (Str × PnpTrie) → PnpTrie

def PnpTrie.packageData : PnpTrie → Option (Str × Str)
  | .node d _ => d

def PnpTrie.children : PnpTrie → List (Str × PnpTrie)
  | .node _ cs => cs

/-- Lookup of childrenPathSegments[segment] (nil when absent). -/
def trieChild (seg : Str) : List (Str × PnpTrie) → Option PnpTrie
  | [] => none
  | (k, t) :: rest => if k = seg then some t else trieChild seg rest

/-- The descent loop of FindLocator: follow children for each segment,
breaking out (keeping the current node) at the first missing child. -/
def trieWalk : List Str → PnpTrie → PnpTrie
  | [], t => t
  | seg :: rest, t =>
    match trieChild seg t.children with
    | none => t
    | some c => trieWalk rest c

/-- The nodes the descent loop visits, in order, starting at the root. -/
def visitedNodes : List Str → PnpTrie → List PnpTrie
  | [], t => [t]
  | seg :: rest, t =>
    match trieChild seg t.children with
    | none => [t]
    | some c => t :: visitedNodes rest c

inductive LocatorResult where
  | found : Str → Str → LocatorResult
  | skipped : LocatorResult
  | relError : LocatorResult
  | failed : Str → LocatorResult
deriving DecidableEq

/-- The ignore-pattern gate: the compiled regex is an external collaborator,
modeled as a pure predicate on the relative path (a nil ignorePatternData
never matches); MatchString errors are not modeled. -/
def skipCheck : Option (Str → Bool) → Str → Bool
  | none, _ => false
  | some pat, r => pat r

/-- relativePathWithDot: prefix "./" unless the path starts with "../". -/
def relWithDot (r : Str) : Str :=
  if hasLead (str "../") r then r else str "./" ++ r

/-- The tail of FindLocator: report the final node's packageData, or the
"no package found" error when it carries none. -/
def locatorOf (t : PnpTrie) (rel : Str) : LocatorResult :=
  match t.packageData with
  | none => .failed (str "no package found for path " ++ rel)
  | some p => .found p.1 p.2

/-- Embedding of PnpApi.FindLocator: make parentPath relative to the
manifest dirPath (relError when filepath.Rel fails), consult the ignore
pattern, then walk the trie over the slash-split segments of
relativePathWithDot and report the final node's data. -/
def findLocator (dirPath : Str) (ign : Option (Str → Bool)) (trie : PnpTrie)
    (parentPath : Str) : LocatorResult :=
  match goRel dirPath parentPath with
  | none => .relError
  | some relativePath =>
    if skipCheck ign relativePath then .skipped
    else locatorOf (trieWalk (charSplit '/' (relWithDot relativePath)) trie)
      relativePath

theorem findLocator_rel {d p r : Str} {ign : Option (Str → Bool)}
    {t : PnpTrie} (h : goRel d p = some r) :
    findLocator d ign t p =
      if skipCheck ign r then .skipped
      else locatorOf (trieWalk (charSplit '/' (relWithDot r)) t) r := by
  unfold findLocator
  rw [h]

theorem visitedNodes_ne_nil (segs : List Str) (t : PnpTrie) :
    visitedNodes segs t ≠ [] := by
  cases segs with
  | nil => simp [visitedNodes]
  | cons seg rest =>
    unfold visitedNodes
    cases trieChild seg t.children <;> simp

theorem getLastQ_cons_of_ne_nil {l : List PnpTrie} (a : PnpTrie)
    (h : l ≠ []) : (a :: l).getLast? = l.getLast? := by
  cases l with
  | nil => exact absurd rfl h
  | cons b u => simp [List.getLast?]

/-- The final node of the descent is the last visited node. -/
theorem visitedNodes_getLast (segs : List Str) (t : PnpTrie) :
    (visitedNodes segs t).getLast? = some (trieWalk segs t) := by
  induction segs generalizing t with
  | nil => rfl
  | cons seg rest ih =>
    rw [show visitedNodes (seg :: rest) t =
        (match trieChild seg t.children with
         | none => [t]
         | some c => t :: visitedNodes rest c) from rfl]
    rw [show trieWalk (seg :: rest) t =
        (match trieChild seg t.children with
         | none => t
         | some c => trieWalk rest c) from rfl]
    cases h : trieChild seg t.children with
    | none => rfl
    | some c =>
      rw [getLastQ_cons_of_ne_nil t (visitedNodes_ne_nil rest c)]
      exact ih c

/-- The concrete registry used to test FindLocator: the top-level package
sits at the "." node and an unregistered subdirectory "a" below it. -/
def trieC2 : PnpTrie :=
  .node none [(str ".",
    .node (some (str "root-pkg", str "1")) [(str "a", .node none [])])]

/-- Claim C2 counterexample: with the manifest at "/p" and a package
registered at the "." node, FindLocator("/p/a") visits the "." node (which
carries a PackageKey) and then the keyless "a" node, and fails with
"no package found" instead of returning the deepest visited key. -/
theorem FindLocator_deepestKey_counterexample :
    findLocator (str "/p") none trieC2 (str "/p/a") =
      .failed (str "no package found for path " ++ str "a") ∧
    some (str "root-pkg", str "1") ∈
      (visitedNodes (charSplit '/' (relWithDot (str "a"))) trieC2).map
        PnpTrie.packageData := by
  decide

/-- Claim C2 (amended): FindLocator is determined by the final node of the
trie descent alone: when filepath.Rel yields rel and the ignore pattern
does not match, the result is the final node's PackageKey when it carries
one and the "no package found" error exactly when that final node carries
none — keys carried by earlier visited nodes are not consulted. The final
node is the last visited node of the descent. -/
theorem FindLocator_finalNode_amended (dirPath parentPath rel : Str)
    (ign : Option (Str → Bool)) (trie : PnpTrie)
    (hrel : goRel dirPath parentPath = some rel)
    (hskip : skipCheck ign rel = false) :
    findLocator dirPath ign trie parentPath =
      locatorOf (trieWalk (charSplit '/' (relWithDot rel)) trie) rel ∧
    (visitedNodes (charSplit '/' (relWithDot rel)) trie).getLast? =
      some (trieWalk (charSplit '/' (relWithDot rel)) trie) ∧
    (∀ msg, findLocator dirPath ign trie parentPath = .failed msg ↔
      ((trieWalk (charSplit '/' (relWithDot rel)) trie).packageData = none ∧
        msg = str "no package found for path " ++ rel)) := by
  have hmain : findLocator dirPath ign trie parentPath =
      locatorOf (trieWalk (charSplit '/' (relWithDot rel)) trie) rel := by
    rw [findLocator_rel hrel, hskip]
    rw [if_neg Bool.false_ne_true]
  refine ⟨hmain, visitedNodes_getLast _ _, ?_⟩
  intro msg
  rw [hmain]
  unfold locatorOf
  cases hpd : (trieWalk (charSplit '/' (relWithDot rel)) trie).packageData with
  | none =>
    simp only [true_and]
    constructor
    · intro h
      injection h with h2
      exact h2.symm
    · intro h
      rw [h]
  | some p =>
    constructor
    · intro h
      exact LocatorResult.noConfusion h
    · intro h
      exact absurd h.1 (Option.some_ne_none p)

/-- Claim C2 witness: the amended theorem at the counterexample inputs:
dirPath "/p", parentPath "/p/a", no ignore pattern, registry trieC2. -/
theorem FindLocator_finalNode_amended_witness :
    findLocator (str "/p") none trieC2 (str "/p/a") =
      locatorOf (trieWalk (charSplit '/' (relWithDot (str "a"))) trieC2)
        (str "a") :=
  (FindLocator_finalNode_amended (str "/p") (str "/p/a") (str "a") none trieC2
    (by decide) (by decide)).1

/-! ### ResolveToUnqualified (src/internal/pnp/pnpapi.go lines 44-117) -/

/-- One outgoing dependency edge (spec section 3: ident, reference,
aliasName; the struct declaration itself is outside src/, modeled from the
spec data model, and an edge is an alias iff aliasName is non-empty). -/
structure PackageDependency where
  ident : Str
  reference : Str
  aliasName : Str
deriving DecidableEq

structure PackageInfo where
  packageLocation : Str
  packageDependencies : List PackageDependency
deriving DecidableEq

/-- The parts of PnpManifestData that ResolveToUnqualified consults; the Go
maps are modeled as association lists and the compiled ignore regex as a
pure predicate. -/
structure PnpManifestData where
  dirPath : Str
  packageRegistryMap : List ((Str × Str) × PackageInfo)
  packageRegistryTrie : PnpTrie
  ignorePatternData : Option (Str → Bool)
  enableTopLevelFallback : Bool
  fallbackExclusionMap : List (Str × List Str)
  fallbackPool : List (Str × Str)

/-- packageRegistryMap[name][reference]; GetPackage panics when this is
absent, which callers surface as `.panicked` below. -/
def getPackage : List ((Str × Str) × PackageInfo) → Str × Str → Option PackageInfo
  | [], _ => none
  | (k, v) :: rest, loc => if k = loc then some v else getPackage rest loc

def exclusionFor : List (Str × List Str) → Str → Option (List Str)
  | [], _ => none
  | (k, v) :: rest, n => if k = n then some v else exclusionFor rest n

/-- The fallback-exclusion gate: parent is excluded when
fallbackExclusionMap has its name and one of the entries equals its
reference. -/
def isExcluded (mEx : List (Str × List Str)) (pn pr : Str) : Bool :=
  match exclusionFor mEx pn with
  | none => false
  | some entries => entries.any (fun e => e = pr)

/-- First dependency whose Ident equals the searched name. -/
def findDep : List PackageDependency → Str → Option PackageDependency
  | [], _ => none
  | d :: rest, i => if d.ident = i then some d else findDep rest i

def poolFind : List (Str × Str) → Str → Option PackageDependency
  | [], _ => none
  | e :: rest, n => if e.1 = n then some ⟨e.1, e.2, []⟩ else poolFind rest n

/-- Embedding of ResolveViaFallback: top-level dependencies first, then the
fallbackPool; `.error ()` models the GetPackage panic on a registry without
a top-level entry. -/
def resolveViaFallback (m : PnpManifestData) (name : Str) :
    Except Unit (Option PackageDependency) :=
  match getPackage m.packageRegistryMap ([], []) with
  | none => .error ()
  | some top =>
    match findDep top.packageDependencies name with
    | some d => .ok (some d)
    | none => .ok (poolFind m.fallbackPool name)

/-- The fallback step of ResolveToUnqualified (lines 73-89). -/
def fallbackEdge (m : PnpManifestData) (pn pr ident : Str) :
    Except Unit (Option PackageDependency) :=
  if m.enableTopLevelFallback then
    if isExcluded m.fallbackExclusionMap pn pr then .ok none
    else resolveViaFallback m ident
  else .ok none

/-- The dependency edge ResolveToUnqualified settles on: the parent's own
declared dependency when present, otherwise the fallback result. -/
def edgeFor (m : PnpManifestData) (pkg : PackageInfo) (pn pr ident : Str) :
    Except Unit (Option PackageDependency) :=
  match findDep pkg.packageDependencies ident with
  | some d => .ok (some d)
  | none => fallbackEdge m pn pr ident

inductive ResolveResult where
  | skipped : ResolveResult
  | resolved : Str → ResolveResult
  | diag : Str → ResolveResult
  | panicked : ResolveResult
deriving DecidableEq

def apos : Str := [Char.ofNat 39]

def peerPat : Str := str "(a peer dependency)"

/-- The two unfulfilled-peer-dependency diagnostics (lines 104 and 106),
selected on whether the parent locator has an empty name. -/
def peerMsg (pn i pp : Str) : Str :=
  if pn = [] then
    str "Your application tried to access " ++ i ++ str " " ++ peerPat ++
      (str "; this isn" ++ apos ++
        str "t allowed as there is no ancestor to satisfy the requirement. Use a devDependency if needed.\n\nRequired package: " ++
        i ++ str "\nRequired by: " ++ pp)
  else
    pn ++ str " tried to access " ++ i ++ str " " ++ peerPat ++
      (str " but it isn" ++ apos ++
        str "t provided by its ancestors/your application; this makes the require call ambiguous and unsound.\n\nRequired package: " ++
        i ++ str "\nRequired by: " ++ pp)

/-- The two undeclared-dependency diagnostics (lines 94-98). -/
def undeclaredMsg (pn i pp : Str) : Str :=
  if pn = [] then
    str "Your application tried to access " ++ i ++ str ", but it isn" ++
      apos ++
      str "t declared in your dependencies; this makes the require call ambiguous and unsound.\n\nRequired package: " ++
      i ++ str "\nRequired by: " ++ pp
  else
    pn ++ str " tried to access " ++ i ++ str ", but it isn" ++ apos ++
      str "t declared in your dependencies; this makes the require call ambiguous and unsound.\n\nRequired package: " ++
      i ++ str "\nRequired by: " ++ pp

/-- The registry key of a settled edge: (aliasName, reference) when the
edge is an alias, (ident, reference) otherwise. -/
def depTarget (d : PackageDependency) : Str × Str :=
  if d.aliasName = [] then (d.ident, d.reference) else (d.aliasName, d.reference)

def resolveDep (m : PnpManifestData) (mp : Str) : Option PackageInfo → ResolveResult
  | none => .panicked
  | some pkg => .resolved (goJoin [m.dirPath, pkg.packageLocation, mp])

/-- Outcome of ResolveToUnqualified once the edge search finished: no edge
means the undeclared diagnostic; a non-alias edge with empty reference
means the peer diagnostic; otherwise look up the target package and join
the final path. -/
def edgeOutcome (m : PnpManifestData) (i mp pp pn : Str) :
    Option PackageDependency → ResolveResult
  | none => .diag (undeclaredMsg pn i pp)
  | some d =>
    if d.aliasName = [] ∧ d.reference = [] then .diag (peerMsg pn i pp)
    else resolveDep m mp (getPackage m.packageRegistryMap (depTarget d))

def resolveWithEdge (m : PnpManifestData) (i mp pp pn : Str) :
    Except Unit (Option PackageDependency) → ResolveResult
  | .error _ => .panicked
  | .ok e => edgeOutcome m i mp pp pn e

def resolveWithPkg (m : PnpManifestData) (i mp pp pn pr : Str) :
    Option PackageInfo → ResolveResult
  | none => .panicked
  | some pkg => resolveWithEdge m i mp pp pn (edgeFor m pkg pn pr i)

def resolveWithLocator (m : PnpManifestData) (i mp pp : Str) :
    LocatorResult → ResolveResult
  | .found pn pr => resolveWithPkg m i mp pp pn pr
      (getPackage m.packageRegistryMap (pn, pr))
  | _ => .skipped

def resolveWithParse (m : PnpManifestData) (pp : Str) :
    Except Str (Str × Str) → ResolveResult
  | .error _ => .skipped
  | .ok pr => resolveWithLocator m pr.1 pr.2 pp
      (findLocator m.dirPath m.ignorePatternData m.packageRegistryTrie pp)

/-- Embedding of PnpApi.ResolveToUnqualified: parse the specifier, find the
parent locator (any parse failure, Rel failure, ignore match or missing
trie key skips the resolution), fetch the parent package, settle on an
edge, and produce the outcome. -/
def resolveToUnqualified (m : PnpManifestData) (specifier pp : Str) : ResolveResult :=
  resolveWithParse m pp (parseBareIdentifier specifier)

theorem resolveToUnqualified_edge {m : PnpManifestData}
    {spec pp i mp pn pr : Str} {pkg : PackageInfo}
    {e : Option PackageDependency}
    (h1 : parseBareIdentifier spec = .ok (i, mp))
    (h2 : findLocator m.dirPath m.ignorePatternData m.packageRegistryTrie pp =
      .found pn pr)
    (h3 : getPackage m.packageRegistryMap (pn, pr) = some pkg)
    (h4 : edgeFor m pkg pn pr i = .ok e) :
    resolveToUnqualified m spec pp = edgeOutcome m i mp pp pn e := by
  unfold resolveToUnqualified
  rw [h1]
  rw [show resolveWithParse m pp (.ok (i, mp)) = resolveWithLocator m i mp pp
    (findLocator m.dirPath m.ignorePatternData m.packageRegistryTrie pp) from rfl]
  rw [h2]
  rw [show resolveWithLocator m i mp pp (.found pn pr) = resolveWithPkg m i mp pp
    pn pr (getPackage m.packageRegistryMap (pn, pr)) from rfl]
  rw [h3]
  rw [show resolveWithPkg m i mp pp pn pr (some pkg) = resolveWithEdge m i mp pp
    pn (edgeFor m pkg pn pr i) from rfl]
  rw [h4]
  rfl

theorem edgeOutcome_some (m : PnpManifestData) (i mp pp pn : Str)
    (d : PackageDependency) :
    edgeOutcome m i mp pp pn (some d) =
      if d.aliasName = [] ∧ d.reference = [] then .diag (peerMsg pn i pp)
      else resolveDep m mp (getPackage m.packageRegistryMap (depTarget d)) := rfl

theorem peerMsg_decomp (pn i pp : Str) :
    ∃ a b, peerMsg pn i pp = a ++ str "(a peer dependency)" ++ b := by
  by_cases h : pn = []
  · refine ⟨str "Your application tried to access " ++ i ++ str " ",
      str "; this isn" ++ apos ++
        str "t allowed as there is no ancestor to satisfy the requirement. Use a devDependency if needed.\n\nRequired package: " ++
        i ++ str "\nRequired by: " ++ pp, ?_⟩
    unfold peerMsg
    rw [if_pos h]
    rfl
  · refine ⟨pn ++ str " tried to access " ++ i ++ str " ",
      str " but it isn" ++ apos ++
        str "t provided by its ancestors/your application; this makes the require call ambiguous and unsound.\n\nRequired package: " ++
        i ++ str "\nRequired by: " ++ pp, ?_⟩
    unfold peerMsg
    rw [if_neg h]
    rfl

/-- Claim C7: once ResolveToUnqualified has parsed the specifier, located
and fetched the parent package, and settled on a dependency edge, it
produces a diagnostic containing "(a peer dependency)" if and only if that
edge is not an alias and its reference is empty; the diagnostic then is
exactly the peer message, which leads with "Your application" when the
parent locator name is empty and with the parent name otherwise. -/
theorem ResolveToUnqualified_peerDiagnostic (m : PnpManifestData)
    (specifier parentPath ident modulePath pname pref : Str)
    (parentPkg : PackageInfo) (d : PackageDependency)
    (hparse : parseBareIdentifier specifier = .ok (ident, modulePath))
    (hloc : findLocator m.dirPath m.ignorePatternData m.packageRegistryTrie
      parentPath = .found pname pref)
    (hpkg : getPackage m.packageRegistryMap (pname, pref) = some parentPkg)
    (hedge : edgeFor m parentPkg pname pref ident = .ok (some d)) :
    ((∃ msg a b, resolveToUnqualified m specifier parentPath = .diag msg ∧
        msg = a ++ str "(a peer dependency)" ++ b) ↔
      (d.aliasName = [] ∧ d.reference = [])) ∧
    (d.aliasName = [] → d.reference = [] →
      resolveToUnqualified m specifier parentPath =
        .diag (peerMsg pname ident parentPath) ∧
      (pname = [] → ∃ b, peerMsg pname ident parentPath =
        str "Your application tried to access " ++ b) ∧
      (pname ≠ [] → ∃ b, peerMsg pname ident parentPath = pname ++ b)) := by
  have hred := resolveToUnqualified_edge hparse hloc hpkg hedge
  rw [edgeOutcome_some] at hred
  constructor
  · constructor
    · rintro ⟨msg, a, b, hmsg, -⟩
      by_contra hc
      rw [if_neg hc] at hred
      rw [hred] at hmsg
      cases hg : getPackage m.packageRegistryMap (depTarget d) with
      | none =>
        rw [hg] at hmsg
        rw [show resolveDep m modulePath none = ResolveResult.panicked from rfl]
          at hmsg
        exact ResolveResult.noConfusion hmsg
      | some pkg =>
        rw [hg] at hmsg
        rw [show resolveDep m modulePath (some pkg) = ResolveResult.resolved
          (goJoin [m.dirPath, pkg.packageLocation, modulePath]) from rfl] at hmsg
        exact ResolveResult.noConfusion hmsg
    · intro hc
      rw [if_pos hc] at hred
      obtain ⟨a, b, hab⟩ := peerMsg_decomp pname ident parentPath
      exact ⟨peerMsg pname ident parentPath, a, b, hred, hab⟩
  · intro ha hr
    rw [if_pos ⟨ha, hr⟩] at hred
    refine ⟨hred, ?_, ?_⟩
    · intro hpn
      refine ⟨ident ++ str " " ++ peerPat ++
        (str "; this isn" ++ apos ++
          str "t allowed as there is no ancestor to satisfy the requirement. Use a devDependency if needed.\n\nRequired package: " ++
          ident ++ str "\nRequired by: " ++ parentPath), ?_⟩
      unfold peerMsg
      rw [if_pos hpn]
      simp only [List.append_assoc]
    · intro hpn
      refine ⟨str " tried to access " ++ ident ++ str " " ++ peerPat ++
        (str " but it isn" ++ apos ++
          str "t provided by its ancestors/your application; this makes the require call ambiguous and unsound.\n\nRequired package: " ++
          ident ++ str "\nRequired by: " ++ parentPath), ?_⟩
      unfold peerMsg
      rw [if_neg hpn]
      simp only [List.append_assoc]

/-- Scenario S4: the manifest at /p registers package left@1.0 at the "."
node with one dependency edge, a peer dependency on right with empty
reference and no alias; fallback is disabled. -/
def pkgS4 : PackageInfo := ⟨str "left", [⟨str "right", [], []⟩]⟩

def mS4 : PnpManifestData :=
  ⟨str "/p", [((str "left", str "1.0"), pkgS4)],
    .node none [(str ".", .node (some (str "left", str "1.0")) [])],
    none, false, [], []⟩

/-- Claim C7 witness: resolving "right" from /p in scenario S4 yields the
peer-dependency diagnostic naming parent left. -/
theorem ResolveToUnqualified_peerDiagnostic_witness :
    resolveToUnqualified mS4 (str "right") (str "/p") =
      .diag (peerMsg (str "left") (str "right") (str "/p")) :=
  ((ResolveToUnqualified_peerDiagnostic mS4 (str "right") (str "/p")
      (str "right") [] (str "left") (str "1.0") pkgS4 ⟨str "right", [], []⟩
      (by decide) (by decide) (by decide) (by decide)).2 rfl rfl).1

/-! ### findClosestPnpManifest (src/internal/pnp/pnpapi.go lines 119-133) -/

/-- Embedding of the manifest-search loop. The existence probe `ex` models
os.Stat succeeding on the candidate `.pnp.cjs` path, and `.ok dir` models
returning parseManifestFromPath(directoryPath); both are external
collaborators. The Go `for` loop is unbounded (it diverges on relative
paths whose Dir is a fixed point); the fuel only pays for steps the loop
actually takes, and for the rooted paths the theorems speak about the
directory strictly shortens each step, so the fuel below never runs out. -/
def findClosestLoop (ex : Str → Bool) : Nat → Str → Except Str Str
  | 0, _ => .error (str "no PnP manifest found")
  | fuel + 1, dir =>
    if ex (goJoin [dir, str ".pnp.cjs"]) then .ok dir
    else if goDir dir = str "/" then .error (str "no PnP manifest found")
    else findClosestLoop ex fuel (goDir dir)

def findClosestPnpManifest (ex : Str → Bool) (url : Str) : Except Str Str :=
  findClosestLoop ex (url.length + 1) url

theorem findClosestLoop_succ (ex : Str → Bool) (fuel : Nat) (dir : Str) :
    findClosestLoop ex (fuel + 1) dir =
      if ex (goJoin [dir, str ".pnp.cjs"]) then .ok dir
      else if goDir dir = str "/" then .error (str "no PnP manifest found")
      else findClosestLoop ex fuel (goDir dir) := rfl

/-- Reference search over the segment representation: probe depths k, k-1,
..., 1 and stop — depth 0 (the root itself) is never probed. -/
def upSearch (ex : Str → Bool) (L : List Str) : Nat → Except Str Str
  | 0 => .error (str "no PnP manifest found")
  | k + 1 =>
    if ex (goJoin [absOf (L.take (k + 1)), str ".pnp.cjs"]) then
      .ok (absOf (L.take (k + 1)))
    else upSearch ex L k

theorem upSearch_succ (ex : Str → Bool) (L : List Str) (k : Nat) :
    upSearch ex L (k + 1) =
      if ex (goJoin [absOf (L.take (k + 1)), str ".pnp.cjs"]) then
        .ok (absOf (L.take (k + 1)))
      else upSearch ex L k := rfl

theorem length_le_absOf (L : List Str) : L.length ≤ (absOf L).length := by
  induction L with
  | nil => simp [absOf]
  | cons s rest ih =>
    cases hr : rest with
    | nil => simp [absOf, joinSegs, intercalate_singleton]
    | cons q t =>
      rw [← hr]
      have hrne : rest ≠ [] := by rw [hr]; simp
      have hj : joinSegs (s :: rest) = joinSegs [s] ++ '/' :: joinSegs rest := by
        have := joinSegs_append (L := [s]) (M := rest) (by simp) hrne
        simpa using this
      simp only [absOf, List.length_cons] at ih ⊢
      rw [hj]
      simp only [List.length_append, List.length_cons]
      omega

theorem take_dropLast {α : Type} (L : List α) (k : Nat) (hk : k + 1 ≤ L.length) :
    (L.take (k + 1)).dropLast = L.take k := by
  rw [List.dropLast_eq_take, List.length_take, List.take_take]
  rw [Nat.min_eq_left hk]
  rw [Nat.min_eq_left (by omega)]
  congr 1

theorem findClosestLoop_eq_upSearch {ex : Str → Bool} {L : List Str}
    (hL : goodSegs L) :
    ∀ k fuel, 1 ≤ k → k ≤ L.length → k ≤ fuel →
      findClosestLoop ex fuel (absOf (L.take k)) = upSearch ex L k := by
  intro k
  induction k with
  | zero => intro fuel h1 _ _; omega
  | succ k ih =>
    intro fuel h1 hkL hfuel
    obtain ⟨f, rfl⟩ : ∃ f, fuel = f + 1 := ⟨fuel - 1, by omega⟩
    rw [findClosestLoop_succ, upSearch_succ]
    by_cases hex : ex (goJoin [absOf (L.take (k + 1)), str ".pnp.cjs"]) = true
    · rw [if_pos hex, if_pos hex]
    · rw [if_neg hex, if_neg hex]
      have hgoodTake : goodSegs (L.take (k + 1)) :=
        goodSegs_sub hL (List.take_subset _ _)
      have hTakeNe : L.take (k + 1) ≠ [] := by
        have : (L.take (k + 1)).length = k + 1 := by
          rw [List.length_take]; omega
        intro hnil
        rw [hnil] at this
        simp at this
      rw [goDir_absOf hgoodTake hTakeNe, take_dropLast L k hkL]
      by_cases hk0 : k = 0
      · subst hk0
        have h0 : absOf (L.take 0) = str "/" := rfl
        rw [if_pos h0]
        rfl
      · have hne : absOf (L.take k) ≠ str "/" := by
          intro hroot
          have hnil := (absOf_eq_root_iff
            (goodSegs_sub hL (List.take_subset k L))).mp hroot
          have hlen2 : (L.take k).length = k := by rw [List.length_take]; omega
          rw [hnil] at hlen2
          simp at hlen2
          omega
        rw [if_neg hne]
        obtain ⟨k2, rfl⟩ : ∃ k2, k = k2 + 1 := ⟨k - 1, by omega⟩
        exact ih f (by omega) (by omega) (by omega)

theorem upSearch_ok_iff (ex : Str → Bool) (L : List Str) :
    ∀ k r, upSearch ex L k = .ok r ↔
      ∃ j, 1 ≤ j ∧ j ≤ k ∧
        ex (goJoin [absOf (L.take j), str ".pnp.cjs"]) = true ∧
        r = absOf (L.take j) ∧
        ∀ i, j < i → i ≤ k →
          ex (goJoin [absOf (L.take i), str ".pnp.cjs"]) = false := by
  intro k
  induction k with
  | zero =>
    intro r
    constructor
    · intro h
      exact Except.noConfusion h
    · rintro ⟨j, h1, h2, -⟩
      omega
  | succ k ih =>
    intro r
    rw [upSearch_succ]
    by_cases hex : ex (goJoin [absOf (L.take (k + 1)), str ".pnp.cjs"]) = true
    · rw [if_pos hex]
      constructor
      · intro h
        injection h with h2
        exact ⟨k + 1, by omega, by omega, hex, h2.symm, fun i hi1 hi2 => by omega⟩
      · rintro ⟨j, h1, h2, h3, h4, h5⟩
        by_cases hj : j = k + 1
        · subst hj
          rw [h4]
        · have := h5 (k + 1) (by omega) (by omega)
          rw [this] at hex
          exact absurd hex (by simp)
    · rw [if_neg hex]
      rw [ih r]
      constructor
      · rintro ⟨j, h1, h2, h3, h4, h5⟩
        refine ⟨j, h1, by omega, h3, h4, ?_⟩
        intro i hi1 hi2
        by_cases hik : i = k + 1
        · subst hik
          exact Bool.eq_false_iff.mpr hex
        · exact h5 i hi1 (by omega)
      · rintro ⟨j, h1, h2, h3, h4, h5⟩
        have hj : j ≤ k := by
          by_contra hc
          have : j = k + 1 := by omega
          subst this
          exact hex h3
        exact ⟨j, h1, hj, h3, h4, fun i hi1 hi2 => h5 i hi1 (by omega)⟩

theorem upSearch_error_iff (ex : Str → Bool) (L : List Str) :
    ∀ k, upSearch ex L k = .error (str "no PnP manifest found") ↔
      ∀ j, 1 ≤ j → j ≤ k →
        ex (goJoin [absOf (L.take j), str ".pnp.cjs"]) = false := by
  intro k
  induction k with
  | zero =>
    constructor
    · intro h j h1 h2
      omega
    · intro h
      rfl
  | succ k ih =>
    rw [upSearch_succ]
    by_cases hex : ex (goJoin [absOf (L.take (k + 1)), str ".pnp.cjs"]) = true
    · rw [if_pos hex]
      constructor
      · intro h
        exact Except.noConfusion h
      · intro h
        have := h (k + 1) (by omega) (by omega)
        rw [this] at hex
        exact absurd hex (by simp)
    · rw [if_neg hex]
      rw [ih]
      constructor
      · intro h j h1 h2
        by_cases hjk : j = k + 1
        · subst hjk
          exact Bool.eq_false_iff.mpr hex
        · exact h j h1 (by omega)
      · intro h j h1 h2
        exact h j h1 (by omega)

/-- The probe that demonstrates the gap: a manifest that exists exactly at
the filesystem root. -/
def exC9 : Str → Bool := fun s => decide (s = str "/.pnp.cjs")

/-- Claim C9 counterexample: searching from /a, the loop probes only
/a/.pnp.cjs and then fails — the root probe /.pnp.cjs, which exC9 would
have answered, is never issued because the loop exits as soon as Dir
reaches "/". -/
theorem findClosest_root_counterexample :
    findClosestPnpManifest exC9 (str "/a") =
      .error (str "no PnP manifest found") ∧
    exC9 (goJoin [str "/", str ".pnp.cjs"]) = true := by
  decide

/-- Claim C9 (amended): for a start directory with segments L (rooted,
clean, non-empty), the manifest search probes `.pnp.cjs` exactly in the
directories of depth L.length down to 1, succeeding at the deepest probed
directory where the file exists and failing when no probed directory has
it; the root "/" itself is never probed (the loop exits when Dir reaches
"/" before testing it). -/
theorem findClosestPnpManifest_probes_amended (ex : Str → Bool)
    (L : List Str) (hgood : goodSegs L) (hne : L ≠ []) :
    (∀ r, findClosestPnpManifest ex (absOf L) = .ok r ↔
      ∃ j, 1 ≤ j ∧ j ≤ L.length ∧
        ex (goJoin [absOf (L.take j), str ".pnp.cjs"]) = true ∧
        r = absOf (L.take j) ∧
        ∀ i, j < i → i ≤ L.length →
          ex (goJoin [absOf (L.take i), str ".pnp.cjs"]) = false) ∧
    (findClosestPnpManifest ex (absOf L) =
        .error (str "no PnP manifest found") ↔
      ∀ j, 1 ≤ j → j ≤ L.length →
        ex (goJoin [absOf (L.take j), str ".pnp.cjs"]) = false) := by
  have hlen : 1 ≤ L.length := by
    cases L with
    | nil => exact absurd rfl hne
    | cons s t => simp
  have hstep : findClosestPnpManifest ex (absOf L) =
      upSearch ex L L.length := by
    have h2 := @findClosestLoop_eq_upSearch ex L hgood L.length
      ((absOf L).length + 1) hlen (le_refl _)
      (by have := length_le_absOf L; omega)
    rw [List.take_length] at h2
    exact h2
  rw [hstep]
  exact ⟨fun r => upSearch_ok_iff ex L L.length r, upSearch_error_iff ex L L.length⟩

/-- Claim C9 witness: with a manifest exactly at /a, searching from /a/b
probes /a/b/.pnp.cjs (absent) then /a/.pnp.cjs (present) and returns /a. -/
theorem findClosestPnpManifest_probes_amended_witness :
    findClosestPnpManifest (fun s => decide (s = str "/a/.pnp.cjs"))
      (absOf [str "a", str "b"]) = .ok (absOf ([str "a", str "b"].take 1)) :=
  ((findClosestPnpManifest_probes_amended
      (fun s => decide (s = str "/a/.pnp.cjs")) [str "a", str "b"]
      (by decide) (by decide)).1 (absOf ([str "a", str "b"].take 1))).mpr
    ⟨1, by omega, by decide, by decide, rfl, by
      intro i h1 h2
      have h2b : i ≤ 2 := by simpa using h2
      interval_cases i
      decide⟩

/-! ### The zip-reader cache (src/unnamed/part_002 lines 17-41, 151-205) -/

/-- One cache entry: the zip.ReadCloser is identified by a numeric handle,
time.Time values by ticks (lastUsed) and an Int (zipMTime). -/
structure CachedZipReader where
  reader : Nat
  lastUsed : Nat
  zipMTime : Int
deriving DecidableEq

/-- The pnpFS cache state: the Go map cachedZipReadersMap as an association
list (list order models one iteration order of the Go map, which Go leaves
unspecified; the minimality facts proved below hold for every order), plus
a log of the reader handles on which Close has been invoked. -/
structure PnpFSState where
  maxOpenReaders : Nat
  cachedZipReadersMap : List (Str × CachedZipReader)
  closedReaders : List Nat
deriving DecidableEq

/-- From(fs) (lines 32-41): maxOpenReaders 80, empty cache. -/
def pnpFrom : PnpFSState := ⟨80, [], []⟩

def mapLookup : List (Str × CachedZipReader) → Str → Option CachedZipReader
  | [], _ => none
  | (k0, v0) :: rest, k => if k0 = k then some v0 else mapLookup rest k

/-- Go map assignment: replace the value in place, or append a new entry. -/
def mapInsert : List (Str × CachedZipReader) → Str → CachedZipReader →
    List (Str × CachedZipReader)
  | [], k, v => [(k, v)]
  | (k0, v0) :: rest, k, v =>
    if k0 = k then (k, v) :: rest else (k0, v0) :: mapInsert rest k v

def mapErase : List (Str × CachedZipReader) → Str → List (Str × CachedZipReader)
  | [], _ => []
  | (k0, v0) :: rest, k => if k0 = k then rest else (k0, v0) :: mapErase rest k

def keysOf (m : List (Str × CachedZipReader)) : List Str := m.map Prod.fst

/-- The scan of deleteOldestReader: the running oldest entry, replaced when
a later entry's lastUsed is strictly Before it. -/
def pickOldest : Option (Str × CachedZipReader) →
    List (Str × CachedZipReader) → Option (Str × CachedZipReader)
  | acc, [] => acc
  | none, e :: rest => pickOldest (some e) rest
  | some o, e :: rest =>
    pickOldest (some (if e.2.lastUsed < o.2.lastUsed then e else o)) rest

/-- Embedding of deleteOldestReader (lines 191-205): Close the oldest
cached reader (logged) and delete its key; no-op on an empty map. -/
def deleteOldestReader (st : PnpFSState) : PnpFSState :=
  match pickOldest none st.cachedZipReadersMap with
  | none => st
  | some (q, r) =>
    ⟨st.maxOpenReaders, mapErase st.cachedZipReadersMap q,
      st.closedReaders ++ [r.reader]⟩

/-- tspath.IsZipPath, modeled after the identical in-repo zipvfs helper
(src/internal/vfs/zipvfs/zipvfs.go lines 88-90). -/
def isZipPath (p : Str) : Bool :=
  containsSub (str ".zip/") p || hasEnd (str ".zip") p

theorem mapLookup_insert_self (m : List (Str × CachedZipReader)) (k : Str)
    (v : CachedZipReader) : mapLookup (mapInsert m k v) k = some v := by
  induction m with
  | nil => simp [mapInsert, mapLookup]
  | cons e rest ih =>
    unfold mapInsert
    by_cases h : e.1 = k
    · rw [if_pos h]
      unfold mapLookup
      rw [if_pos rfl]
    · rw [if_neg h]
      unfold mapLookup
      rw [if_neg h]
      exact ih

theorem mem_keys_of_lookup {m : List (Str × CachedZipReader)} {k : Str}
    {v : CachedZipReader} (h : mapLookup m k = some v) : k ∈ keysOf m := by
  induction m with
  | nil => exact Option.noConfusion h
  | cons e rest ih =>
    unfold mapLookup at h
    by_cases he : e.1 = k
    · rw [keysOf, List.map_cons]
      rw [← he]
      exact List.mem_cons_self _ _
    · rw [if_neg he] at h
      rw [keysOf, List.map_cons]
      exact List.mem_cons_of_mem _ (ih h)

theorem mapInsert_length_le (m : List (Str × CachedZipReader)) (k : Str)
    (v : CachedZipReader) : (mapInsert m k v).length ≤ m.length + 1 := by
  induction m with
  | nil => simp [mapInsert]
  | cons e rest ih =>
    unfold mapInsert
    by_cases h : e.1 = k
    · rw [if_pos h]
      simp
    · rw [if_neg h]
      simp only [List.length_cons]
      omega

theorem mapInsert_length_of_mem {m : List (Str × CachedZipReader)} {k : Str}
    {w : CachedZipReader} (h : mapLookup m k = some w) (v : CachedZipReader) :
    (mapInsert m k v).length = m.length := by
  induction m with
  | nil => exact Option.noConfusion h
  | cons e rest ih =>
    unfold mapLookup at h
    unfold mapInsert
    by_cases he : e.1 = k
    · rw [if_pos he]
      simp
    · rw [if_neg he]
      rw [if_neg he] at h
      simp only [List.length_cons]
      rw [ih h]

theorem mapErase_length {m : List (Str × CachedZipReader)} {k : Str}
    (h : k ∈ keysOf m) : (mapErase m k).length + 1 = m.length := by
  induction m with
  | nil => exact absurd h (by simp [keysOf])
  | cons e rest ih =>
    unfold mapErase
    by_cases he : e.1 = k
    · rw [if_pos he]
      simp
    · rw [if_neg he]
      simp only [List.length_cons]
      have h2 : k ∈ keysOf rest := by
        rw [keysOf, List.map_cons] at h
        rcases List.mem_cons.mp h with h3 | h3
        · exact absurd h3.symm he
        · exact h3
      rw [← ih h2]

theorem keys_subset_insert (m : List (Str × CachedZipReader)) (k : Str)
    (v : CachedZipReader) :
    ∀ x ∈ keysOf m, x ∈ keysOf (mapInsert m k v) := by
  induction m with
  | nil => intro x hx; exact absurd hx (by simp [keysOf])
  | cons e rest ih =>
    intro x hx
    unfold mapInsert
    rw [keysOf, List.map_cons] at hx
    by_cases he : e.1 = k
    · rw [if_pos he]
      rw [keysOf, List.map_cons]
      rcases List.mem_cons.mp hx with h2 | h2
      · rw [h2, ← he]
        exact List.mem_cons_self _ _
      · exact List.mem_cons_of_mem _ h2
    · rw [if_neg he]
      rw [keysOf, List.map_cons]
      rcases List.mem_cons.mp hx with h2 | h2
      · rw [h2]
        exact List.mem_cons_self _ _
      · exact List.mem_cons_of_mem _ (ih x h2)

theorem pickOldest_nil (acc : Option (Str × CachedZipReader)) :
    pickOldest acc [] = acc := by
  cases acc <;> rfl

theorem pickOldest_mem :
    ∀ (m : List (Str × CachedZipReader)) (acc : Option (Str × CachedZipReader))
      (e : Str × CachedZipReader),
      pickOldest acc m = some e → e ∈ m ∨ acc = some e := by
  intro m
  induction m with
  | nil =>
    intro acc e h
    rw [pickOldest_nil] at h
    exact Or.inr h
  | cons y rest ih =>
    intro acc e h
    cases acc with
    | none =>
      rcases ih (some y) e h with h2 | h2
      · exact Or.inl (List.mem_cons_of_mem _ h2)
      · injection h2 with h3
        subst h3
        exact Or.inl (List.mem_cons_self _ _)
    | some o =>
      rcases ih (some (if y.2.lastUsed < o.2.lastUsed then y else o)) e h
        with h2 | h2
      · exact Or.inl (List.mem_cons_of_mem _ h2)
      · injection h2 with h3
        by_cases hlt : y.2.lastUsed < o.2.lastUsed
        · rw [if_pos hlt] at h3
          subst h3
          exact Or.inl (List.mem_cons_self _ _)
        · rw [if_neg hlt] at h3
          exact Or.inr (by rw [h3])

theorem pickOldest_min :
    ∀ (m : List (Str × CachedZipReader)) (acc : Option (Str × CachedZipReader))
      (e : Str × CachedZipReader), pickOldest acc m = some e →
      (∀ x ∈ m, e.2.lastUsed ≤ x.2.lastUsed) ∧
      (∀ a, acc = some a → e.2.lastUsed ≤ a.2.lastUsed) := by
  intro m
  induction m with
  | nil =>
    intro acc e h
    rw [pickOldest_nil] at h
    refine ⟨fun x hx => absurd hx (List.not_mem_nil x), fun a ha => ?_⟩
    rw [h] at ha
    injection ha with h2
    exact le_of_eq (by rw [h2])
  | cons y rest ih =>
    intro acc e h
    cases acc with
    | none =>
      have h2 := ih (some y) e h
      refine ⟨?_, fun a ha => Option.noConfusion ha⟩
      intro x hx
      rcases List.mem_cons.mp hx with rfl | hx2
      · exact h2.2 x rfl
      · exact h2.1 x hx2
    | some o =>
      have h2 := ih (some (if y.2.lastUsed < o.2.lastUsed then y else o)) e h
      constructor
      · intro x hx
        rcases List.mem_cons.mp hx with rfl | hx2
        · have h3 := h2.2 _ rfl
          by_cases hlt : x.2.lastUsed < o.2.lastUsed
          · rw [if_pos hlt] at h3
            exact h3
          · rw [if_neg hlt] at h3
            exact le_trans h3 (Nat.le_of_not_lt hlt)
        · exact h2.1 x hx2
      · intro a ha
        injection ha with ha2
        rw [← ha2]
        have h3 := h2.2 _ rfl
        by_cases hlt : y.2.lastUsed < o.2.lastUsed
        · rw [if_pos hlt] at h3
          exact le_trans h3 (Nat.le_of_lt hlt)
        · rw [if_neg hlt] at h3
          exact h3

theorem pickOldest_eq_none :
    ∀ (m : List (Str × CachedZipReader)) (acc : Option (Str × CachedZipReader)),
      pickOldest acc m = none → m = [] ∧ acc = none := by
  intro m
  induction m with
  | nil =>
    intro acc h
    rw [pickOldest_nil] at h
    exact ⟨rfl, h⟩
  | cons y rest ih =>
    intro acc h
    cases acc with
    | none => exact Option.noConfusion (ih (some y) h).2
    | some o =>
      exact Option.noConfusion
        (ih (some (if y.2.lastUsed < o.2.lastUsed then y else o)) h).2

theorem deleteOldestReader_some {st : PnpFSState} {q : Str}
    {r : CachedZipReader}
    (h : pickOldest none st.cachedZipReadersMap = some (q, r)) :
    deleteOldestReader st =
      ⟨st.maxOpenReaders, mapErase st.cachedZipReadersMap q,
        st.closedReaders ++ [r.reader]⟩ := by
  unfold deleteOldestReader
  rw [h]

inductive FSRoute where
  | underlying : Str → FSRoute
  | zipped : Nat → Str → Str → FSRoute
deriving DecidableEq

def routeZip (st2 : PnpFSState) (handle : Nat) (p : Str) : PnpFSState × FSRoute :=
  (st2, .zipped handle (splitZipPath p).2 (splitZipPath p).1)

/-- The open-or-bail tail of getMatchingFS (lines 175-186): a failed
zip.OpenReader falls back to the underlying FS; otherwise evict when the
cache is full and insert the fresh reader. -/
def openAndCache (st : PnpFSState) (zipPath : Str) (handle : Nat)
    (zipMTime : Int) (now : Nat) : PnpFSState :=
  if st.maxOpenReaders ≤ st.cachedZipReadersMap.length then
    ⟨st.maxOpenReaders,
      mapInsert (deleteOldestReader st).cachedZipReadersMap zipPath
        ⟨handle, now, zipMTime⟩,
      (deleteOldestReader st).closedReaders⟩
  else
    ⟨st.maxOpenReaders,
      mapInsert st.cachedZipReadersMap zipPath ⟨handle, now, zipMTime⟩,
      st.closedReaders⟩

def getMatchingOpen (st : PnpFSState) (p : Str) (zipMTime : Int) (now : Nat) :
    Option Nat → PnpFSState × FSRoute
  | none => (st, .underlying p)
  | some h => routeZip (openAndCache st (splitZipPath p).1 h zipMTime now) h p

/-- The cache-hit check (lines 170-186): on a hit with matching mtime the
entry's lastUsed is refreshed in place; otherwise a fresh reader is
opened. -/
def getMatchingCached (st : PnpFSState) (p : Str) (zipMTime : Int)
    (opn : Option Nat) (now : Nat) : Option CachedZipReader → PnpFSState × FSRoute
  | some cached =>
    if cached.zipMTime = zipMTime then
      routeZip ⟨st.maxOpenReaders,
        mapInsert st.cachedZipReadersMap (splitZipPath p).1
          ⟨cached.reader, now, cached.zipMTime⟩,
        st.closedReaders⟩ cached.reader p
    else getMatchingOpen st p zipMTime now opn
  | none => getMatchingOpen st p zipMTime now opn

def getMatchingStat (st : PnpFSState) (p : Str) (opn : Option Nat) (now : Nat) :
    Option Int → PnpFSState × FSRoute
  | none => (st, .underlying p)
  | some zipMTime =>
    getMatchingCached st p zipMTime opn now
      (mapLookup st.cachedZipReadersMap (splitZipPath p).1)

/-- Embedding of getMatchingFS (lines 151-189). External collaborators per
call: `stat` is fs.Stat(zipPath).ModTime() (none when Stat returns nil),
`opn` the handle from zip.OpenReader (none on error), `now` the time.Now()
tick. -/
def getMatchingFS (st : PnpFSState) (p : Str) (stat : Option Int)
    (opn : Option Nat) (now : Nat) : PnpFSState × FSRoute :=
  if isZipPath p then getMatchingStat st p opn now stat
  else (st, .underlying p)

theorem getMatchingFS_cases (st : PnpFSState) (p : Str) (stat : Option Int)
    (opn : Option Nat) (now : Nat) :
    getMatchingFS st p stat opn now = (st, .underlying p) ∨
    (∃ cached mt, stat = some mt ∧
      mapLookup st.cachedZipReadersMap (splitZipPath p).1 = some cached ∧
      cached.zipMTime = mt ∧
      getMatchingFS st p stat opn now =
        routeZip ⟨st.maxOpenReaders,
          mapInsert st.cachedZipReadersMap (splitZipPath p).1
            ⟨cached.reader, now, cached.zipMTime⟩,
          st.closedReaders⟩ cached.reader p) ∨
    (∃ h mt, opn = some h ∧ stat = some mt ∧
      getMatchingFS st p stat opn now =
        routeZip (openAndCache st (splitZipPath p).1 h mt now) h p) := by
  unfold getMatchingFS
  by_cases hz : isZipPath p = true
  · rw [if_pos hz]
    cases stat with
    | none => exact Or.inl rfl
    | some mt =>
      rw [show getMatchingStat st p opn now (some mt) =
        getMatchingCached st p mt opn now
          (mapLookup st.cachedZipReadersMap (splitZipPath p).1) from rfl]
      cases hc : mapLookup st.cachedZipReadersMap (splitZipPath p).1 with
      | none =>
        rw [show getMatchingCached st p mt opn now none =
          getMatchingOpen st p mt now opn from rfl]
        cases opn with
        | none => exact Or.inl rfl
        | some h => exact Or.inr (Or.inr ⟨h, mt, rfl, rfl, rfl⟩)
      | some cached =>
        rw [show getMatchingCached st p mt opn now (some cached) =
          (if cached.zipMTime = mt then
            routeZip ⟨st.maxOpenReaders,
              mapInsert st.cachedZipReadersMap (splitZipPath p).1
                ⟨cached.reader, now, cached.zipMTime⟩,
              st.closedReaders⟩ cached.reader p
          else getMatchingOpen st p mt now opn) from rfl]
        by_cases he : cached.zipMTime = mt
        · rw [if_pos he]
          exact Or.inr (Or.inl ⟨cached, mt, rfl, rfl, he, rfl⟩)
        · rw [if_neg he]
          cases opn with
          | none => exact Or.inl rfl
          | some h => exact Or.inr (Or.inr ⟨h, mt, rfl, rfl, rfl⟩)
  · rw [if_neg hz]
    exact Or.inl rfl

theorem openAndCache_cases (st : PnpFSState) (k : Str) (h : Nat) (mt : Int)
    (now : Nat) :
    (¬ st.maxOpenReaders ≤ st.cachedZipReadersMap.length ∧
      openAndCache st k h mt now =
        ⟨st.maxOpenReaders, mapInsert st.cachedZipReadersMap k ⟨h, now, mt⟩,
          st.closedReaders⟩) ∨
    (st.maxOpenReaders ≤ st.cachedZipReadersMap.length ∧
      openAndCache st k h mt now =
        ⟨st.maxOpenReaders,
          mapInsert (deleteOldestReader st).cachedZipReadersMap k ⟨h, now, mt⟩,
          (deleteOldestReader st).closedReaders⟩) := by
  unfold openAndCache
  by_cases hcap : st.maxOpenReaders ≤ st.cachedZipReadersMap.length
  · rw [if_pos hcap]
    exact Or.inr ⟨hcap, rfl⟩
  · rw [if_neg hcap]
    exact Or.inl ⟨hcap, rfl⟩

theorem deleteOldestReader_none {st : PnpFSState}
    (h : pickOldest none st.cachedZipReadersMap = none) :
    deleteOldestReader st = st := by
  unfold deleteOldestReader
  rw [h]

theorem step_max (st : PnpFSState) (p : Str) (stat : Option Int)
    (opn : Option Nat) (now : Nat) :
    (getMatchingFS st p stat opn now).1.maxOpenReaders = st.maxOpenReaders := by
  rcases getMatchingFS_cases st p stat opn now with h | ⟨c, mt, _, _, _, h⟩ |
    ⟨hh, mt, _, _, h⟩ <;> rw [h]
  all_goals try rfl
  rcases openAndCache_cases st (splitZipPath p).1 hh mt now with ⟨_, h2⟩ |
    ⟨_, h2⟩ <;>
    rw [show (routeZip (openAndCache st (splitZipPath p).1 hh mt now) hh p).1 =
      openAndCache st (splitZipPath p).1 hh mt now from rfl, h2]

theorem step_len (st : PnpFSState) (p : Str) (stat : Option Int)
    (opn : Option Nat) (now : Nat) (hmax : st.maxOpenReaders = 80)
    (hlen : st.cachedZipReadersMap.length ≤ 80) :
    (getMatchingFS st p stat opn now).1.cachedZipReadersMap.length ≤ 80 := by
  rcases getMatchingFS_cases st p stat opn now with h | ⟨c, mt, _, hc, _, h⟩ |
    ⟨hh, mt, _, _, h⟩ <;> rw [h]
  · exact hlen
  · show (mapInsert st.cachedZipReadersMap (splitZipPath p).1
      ⟨c.reader, now, c.zipMTime⟩).length ≤ 80
    rw [mapInsert_length_of_mem hc]
    exact hlen
  · show (openAndCache st (splitZipPath p).1 hh mt now).cachedZipReadersMap.length ≤ 80
    rcases openAndCache_cases st (splitZipPath p).1 hh mt now with ⟨hcap, h2⟩ |
      ⟨hcap, h2⟩ <;> rw [h2]
    · show (mapInsert st.cachedZipReadersMap (splitZipPath p).1
        ⟨hh, now, mt⟩).length ≤ 80
      rw [hmax] at hcap
      have := mapInsert_length_le st.cachedZipReadersMap (splitZipPath p).1
        ⟨hh, now, mt⟩
      omega
    · show (mapInsert (deleteOldestReader st).cachedZipReadersMap
        (splitZipPath p).1 ⟨hh, now, mt⟩).length ≤ 80
      rw [hmax] at hcap
      have hmapne : st.cachedZipReadersMap ≠ [] := by
        intro hnil
        rw [hnil] at hcap
        simp at hcap
      cases hpo : pickOldest none st.cachedZipReadersMap with
      | none => exact absurd (pickOldest_eq_none _ _ hpo).1 hmapne
      | some e =>
        have hdor : (deleteOldestReader st).cachedZipReadersMap =
            mapErase st.cachedZipReadersMap e.1 := by
          rw [deleteOldestReader_some (q := e.1) (r := e.2) (by rw [hpo])]
        rw [hdor]
        have hkey : e.1 ∈ keysOf st.cachedZipReadersMap := by
          rcases pickOldest_mem _ _ _ hpo with hm | hm
          · exact List.mem_map_of_mem Prod.fst hm
          · exact Option.noConfusion hm
        have herase := mapErase_length hkey
        have hins := mapInsert_length_le
          (mapErase st.cachedZipReadersMap e.1) (splitZipPath p).1 ⟨hh, now, mt⟩
        omega

theorem closedReaders_step (st : PnpFSState) (p : Str) (stat : Option Int)
    (opn : Option Nat) (now : Nat) :
    (getMatchingFS st p stat opn now).1.closedReaders = st.closedReaders ∨
    ∃ q r, pickOldest none st.cachedZipReadersMap = some (q, r) ∧
      st.maxOpenReaders ≤ st.cachedZipReadersMap.length ∧
      (getMatchingFS st p stat opn now).1.closedReaders =
        st.closedReaders ++ [r.reader] := by
  rcases getMatchingFS_cases st p stat opn now with h | ⟨c, mt, _, _, _, h⟩ |
    ⟨hh, mt, _, _, h⟩ <;> rw [h]
  · exact Or.inl rfl
  · exact Or.inl rfl
  · rcases openAndCache_cases st (splitZipPath p).1 hh mt now with ⟨hcap, h2⟩ |
      ⟨hcap, h2⟩ <;>
      rw [show (routeZip (openAndCache st (splitZipPath p).1 hh mt now) hh
        p).1.closedReaders =
        (openAndCache st (splitZipPath p).1 hh mt now).closedReaders from rfl,
        h2]
    · exact Or.inl rfl
    · cases hpo : pickOldest none st.cachedZipReadersMap with
      | none =>
        rw [show (⟨st.maxOpenReaders,
          mapInsert (deleteOldestReader st).cachedZipReadersMap
            (splitZipPath p).1 ⟨hh, now, mt⟩,
          (deleteOldestReader st).closedReaders⟩ : PnpFSState).closedReaders =
          (deleteOldestReader st).closedReaders from rfl]
        rw [deleteOldestReader_none hpo]
        exact Or.inl rfl
      | some e =>
        refine Or.inr ⟨e.1, e.2, rfl, hcap, ?_⟩
        rw [show (⟨st.maxOpenReaders,
          mapInsert (deleteOldestReader st).cachedZipReadersMap
            (splitZipPath p).1 ⟨hh, now, mt⟩,
          (deleteOldestReader st).closedReaders⟩ : PnpFSState).closedReaders =
          (deleteOldestReader st).closedReaders from rfl]
        rw [deleteOldestReader_some (q := e.1) (r := e.2) (by rw [hpo])]

theorem keys_step (st : PnpFSState) (p : Str) (stat : Option Int)
    (opn : Option Nat) (now : Nat)
    (hc : (getMatchingFS st p stat opn now).1.closedReaders = st.closedReaders) :
    ∀ k ∈ keysOf st.cachedZipReadersMap,
      k ∈ keysOf (getMatchingFS st p stat opn now).1.cachedZipReadersMap := by
  rcases getMatchingFS_cases st p stat opn now with h | ⟨c, mt, _, _, _, h⟩ |
    ⟨hh, mt, _, _, h⟩ <;> rw [h] <;> intro k hk
  · exact hk
  · exact keys_subset_insert _ _ _ k hk
  · show k ∈ keysOf (openAndCache st (splitZipPath p).1 hh mt now).cachedZipReadersMap
    rcases openAndCache_cases st (splitZipPath p).1 hh mt now with ⟨hcap, h2⟩ |
      ⟨hcap, h2⟩ <;> rw [h2]
    · exact keys_subset_insert _ _ _ k hk
    · cases hpo : pickOldest none st.cachedZipReadersMap with
      | none =>
        show k ∈ keysOf (mapInsert (deleteOldestReader st).cachedZipReadersMap
          (splitZipPath p).1 ⟨hh, now, mt⟩)
        rw [deleteOldestReader_none hpo]
        exact keys_subset_insert _ _ _ k hk
      | some e =>
        exfalso
        rw [h] at hc
        rw [show (routeZip (openAndCache st (splitZipPath p).1 hh mt now) hh
          p).1.closedReaders =
          (openAndCache st (splitZipPath p).1 hh mt now).closedReaders from rfl,
          h2] at hc
        rw [show (⟨st.maxOpenReaders,
          mapInsert (deleteOldestReader st).cachedZipReadersMap
            (splitZipPath p).1 ⟨hh, now, mt⟩,
          (deleteOldestReader st).closedReaders⟩ : PnpFSState).closedReaders =
          (deleteOldestReader st).closedReaders from rfl] at hc
        rw [deleteOldestReader_some (q := e.1) (r := e.2) (by rw [hpo])] at hc
        have : st.closedReaders.length + 1 = st.closedReaders.length := by
          have h3 := congrArg List.length hc
          simpa using h3
        omega

theorem zipped_key_step (st : PnpFSState) (p : Str) (stat : Option Int)
    (opn : Option Nat) (now : Nat) {r : Nat} {ip zp : Str}
    (h : (getMatchingFS st p stat opn now).2 = .zipped r ip zp) :
    zp ∈ keysOf (getMatchingFS st p stat opn now).1.cachedZipReadersMap := by
  rcases getMatchingFS_cases st p stat opn now with he | ⟨c, mt, _, _, _, he⟩ |
    ⟨hh, mt, _, _, he⟩ <;> rw [he] at h ⊢
  · exact FSRoute.noConfusion h
  · have hzp : zp = (splitZipPath p).1 := by
      have h2 : FSRoute.zipped c.reader (splitZipPath p).2 (splitZipPath p).1 =
          FSRoute.zipped r ip zp := h
      injection h2 with _ _ h3
      exact h3.symm
    rw [hzp]
    exact mem_keys_of_lookup (mapLookup_insert_self _ _ _)
  · have hzp : zp = (splitZipPath p).1 := by
      have h2 : FSRoute.zipped hh (splitZipPath p).2 (splitZipPath p).1 =
          FSRoute.zipped r ip zp := h
      injection h2 with _ _ h3
      exact h3.symm
    rw [hzp]
    show (splitZipPath p).1 ∈
      keysOf (openAndCache st (splitZipPath p).1 hh mt now).cachedZipReadersMap
    rcases openAndCache_cases st (splitZipPath p).1 hh mt now with ⟨_, h2⟩ |
      ⟨_, h2⟩ <;> rw [h2] <;>
      exact mem_keys_of_lookup (mapLookup_insert_self _ _ _)

/-- One getMatchingFS call with its per-call external inputs. -/
structure FSEvent where
  path : Str
  statMTime : Option Int
  openReader : Option Nat
  now : Nat
deriving DecidableEq

def runEvents : PnpFSState → List FSEvent → PnpFSState
  | st, [] => st
  | st, e :: rest =>
    runEvents (getMatchingFS st e.path e.statMTime e.openReader e.now).1 rest

/-- The zip archives the trace routes through a cached reader. -/
def runZips : PnpFSState → List FSEvent → List Str
  | _, [] => []
  | st, e :: rest =>
    (match (getMatchingFS st e.path e.statMTime e.openReader e.now).2 with
     | .zipped _ _ zp => [zp]
     | .underlying _ => []) ++
    runZips (getMatchingFS st e.path e.statMTime e.openReader e.now).1 rest

theorem runEvents_cons (st : PnpFSState) (e : FSEvent) (rest : List FSEvent) :
    runEvents st (e :: rest) =
      runEvents (getMatchingFS st e.path e.statMTime e.openReader e.now).1
        rest := rfl

theorem runZips_cons (st : PnpFSState) (e : FSEvent) (rest : List FSEvent) :
    runZips st (e :: rest) =
      (match (getMatchingFS st e.path e.statMTime e.openReader e.now).2 with
       | .zipped _ _ zp => [zp]
       | .underlying _ => []) ++
      runZips (getMatchingFS st e.path e.statMTime e.openReader e.now).1
        rest := rfl

theorem runEvents_inv : ∀ (evs : List FSEvent) (st : PnpFSState),
    st.maxOpenReaders = 80 → st.cachedZipReadersMap.length ≤ 80 →
    (runEvents st evs).maxOpenReaders = 80 ∧
    (runEvents st evs).cachedZipReadersMap.length ≤ 80 := by
  intro evs
  induction evs with
  | nil => intro st h1 h2; exact ⟨h1, h2⟩
  | cons e rest ih =>
    intro st h1 h2
    rw [runEvents_cons]
    exact ih _ (by rw [step_max]; exact h1)
      (step_len st e.path e.statMTime e.openReader e.now h1 h2)

theorem runEvents_closed_mono : ∀ (evs : List FSEvent) (st : PnpFSState),
    ∃ t, (runEvents st evs).closedReaders = st.closedReaders ++ t := by
  intro evs
  induction evs with
  | nil =>
    intro st
    exact ⟨[], by rw [show runEvents st [] = st from rfl]; simp⟩
  | cons e rest ih =>
    intro st
    rw [runEvents_cons]
    obtain ⟨t2, ht2⟩ :=
      ih (getMatchingFS st e.path e.statMTime e.openReader e.now).1
    rcases closedReaders_step st e.path e.statMTime e.openReader e.now with
      h1 | ⟨q, r, _, _, h1⟩
    · exact ⟨t2, by rw [ht2, h1]⟩
    · exact ⟨[r.reader] ++ t2, by rw [ht2, h1]; simp⟩

theorem runEvents_noclose : ∀ (evs : List FSEvent) (st : PnpFSState),
    (runEvents st evs).closedReaders = st.closedReaders →
    (∀ k ∈ keysOf st.cachedZipReadersMap,
      k ∈ keysOf (runEvents st evs).cachedZipReadersMap) ∧
    (∀ k ∈ runZips st evs,
      k ∈ keysOf (runEvents st evs).cachedZipReadersMap) := by
  intro evs
  induction evs with
  | nil =>
    intro st _
    exact ⟨fun k hk => hk, fun k hk => absurd hk (by simp [runZips])⟩
  | cons e rest ih =>
    intro st hfinal
    rw [runEvents_cons] at hfinal ⊢
    have hstep_closed :
        (getMatchingFS st e.path e.statMTime e.openReader e.now).1.closedReaders
          = st.closedReaders := by
      obtain ⟨t2, ht2⟩ :=
        runEvents_closed_mono rest
          (getMatchingFS st e.path e.statMTime e.openReader e.now).1
      rcases closedReaders_step st e.path e.statMTime e.openReader e.now with
        h1 | ⟨q, r, _, _, h1⟩
      · exact h1
      · exfalso
        rw [ht2, h1] at hfinal
        have h3 := congrArg List.length hfinal
        simp [List.length_append] at h3
    have hrest := ih (getMatchingFS st e.path e.statMTime e.openReader e.now).1
      (by rw [hfinal, hstep_closed])
    constructor
    · intro k hk
      exact hrest.1 k
        (keys_step st e.path e.statMTime e.openReader e.now hstep_closed k hk)
    · intro k hk
      rw [runZips_cons] at hk
      rcases List.mem_append.mp hk with hk1 | hk2
      · cases hroute : (getMatchingFS st e.path e.statMTime e.openReader
          e.now).2 with
        | underlying q =>
          rw [hroute] at hk1
          exact absurd hk1 (by simp)
        | zipped rr ip zp =>
          rw [hroute] at hk1
          simp at hk1
          rw [hk1]
          exact hrest.1 zp
            (zipped_key_step st e.path e.statMTime e.openReader e.now hroute)
      · exact hrest.2 k hk2

/-- Claim C3: the reader cache built by any sequence of getMatchingFS calls
from the initial state holds at most 80 entries; deleteOldestReader closes
and removes a cached entry whose lastUsed is minimal over the whole map;
and a trace that routed through more than 80 distinct archives must have
closed at least one reader (contrapositive: a trace with an empty close
log touched at most 80 distinct archives). -/
theorem pnpFS_readerCacheBound (evs : List FSEvent) :
    (runEvents pnpFrom evs).cachedZipReadersMap.length ≤ 80 ∧
    (∀ st : PnpFSState, ∀ q r,
      pickOldest none st.cachedZipReadersMap = some (q, r) →
      (deleteOldestReader st).closedReaders = st.closedReaders ++ [r.reader] ∧
      (deleteOldestReader st).cachedZipReadersMap =
        mapErase st.cachedZipReadersMap q ∧
      (q, r) ∈ st.cachedZipReadersMap ∧
      ∀ x ∈ st.cachedZipReadersMap, r.lastUsed ≤ x.2.lastUsed) ∧
    ((runEvents pnpFrom evs).closedReaders = [] →
      (runZips pnpFrom evs).toFinset.card ≤ 80) := by
  refine ⟨(runEvents_inv evs pnpFrom rfl (by simp [pnpFrom])).2, ?_, ?_⟩
  · intro st q r hpo
    rw [deleteOldestReader_some hpo]
    refine ⟨rfl, rfl, ?_, ?_⟩
    · rcases pickOldest_mem _ _ _ hpo with hm | hm
      · exact hm
      · exact Option.noConfusion hm
    · intro x hx
      exact (pickOldest_min _ _ _ hpo).1 x hx
  · intro hclosed
    have hnc := runEvents_noclose evs pnpFrom (by rw [hclosed]; rfl)
    have hsub : (runZips pnpFrom evs).toFinset ⊆
        (keysOf (runEvents pnpFrom evs).cachedZipReadersMap).toFinset := by
      intro k hk
      rw [List.mem_toFinset] at hk ⊢
      exact hnc.2 k hk
    calc (runZips pnpFrom evs).toFinset.card
        ≤ (keysOf (runEvents pnpFrom evs).cachedZipReadersMap).toFinset.card :=
          Finset.card_le_card hsub
      _ ≤ (keysOf (runEvents pnpFrom evs).cachedZipReadersMap).length :=
          List.toFinset_card_le _
      _ = (runEvents pnpFrom evs).cachedZipReadersMap.length := by
          rw [keysOf, List.length_map]
      _ ≤ 80 := (runEvents_inv evs pnpFrom rfl (by simp [pnpFrom])).2

/-- A two-entry cache state used to exercise eviction: /b.zip was used
least recently. -/
def stC3 : PnpFSState :=
  ⟨80, [(str "/a.zip", ⟨7, 3, 5⟩), (str "/b.zip", ⟨9, 1, 6⟩)], []⟩

def evsC3 : List FSEvent := [⟨str "/a.zip/x", some 5, some 1, 0⟩]

/-- Claim C3 witness: the bound after a one-event trace, the eviction facts
on stC3 (the oldest entry /b.zip is closed and removed), and the
distinct-archive bound for an eviction-free trace. -/
theorem pnpFS_readerCacheBound_witness :
    (runEvents pnpFrom evsC3).cachedZipReadersMap.length ≤ 80 ∧
    (deleteOldestReader stC3).closedReaders = [] ++ [9] ∧
    (deleteOldestReader stC3).cachedZipReadersMap =
      mapErase stC3.cachedZipReadersMap (str "/b.zip") ∧
    (runZips pnpFrom evsC3).toFinset.card ≤ 80 := by
  have h := pnpFS_readerCacheBound evsC3
  have h2 := h.2.1 stC3 (str "/b.zip") ⟨9, 1, 6⟩ (by decide)
  exact ⟨h.1, h2.1, h2.2.1, h.2.2 (by decide)⟩

/-! ### ClearPnpCache (src/internal/pnp/pnp.go lines 16-21) and
UseCaseSensitiveFileNames (src/unnamed/part_002 lines 121-124) -/

/-- The process-wide PnP state: the manifest singleton guarded by
isPnpApiInitialized/cachedPnpApi (pnp.go), juxtaposed with a pnpFS
reader-cache state so that invalidation can be related to the reader
cache. -/
structure PnpProcessState where
  isPnpApiInitialized : Bool
  cachedPnpApi : Option Unit
  fsState : PnpFSState
deriving DecidableEq

/-- Embedding of ClearPnpCache: under pnpMu it sets cachedPnpApi = nil and
stores 0 into isPnpApiInitialized — and does nothing else. -/
def clearPnpCache (g : PnpProcessState) : PnpProcessState :=
  ⟨false, none, g.fsState⟩

def gC4 : PnpProcessState :=
  ⟨true, some (), ⟨80, [(str "/a.zip", ⟨7, 3, 5⟩)], []⟩⟩

/-- Claim C4 counterexample: with reader 7 cached for /a.zip, invalidating
the manifest via ClearPnpCache leaves the close log empty and the reader
still cached — Close is not invoked on any cached reader. -/
theorem clearPnpCache_counterexample :
    (clearPnpCache gC4).fsState.closedReaders = [] ∧
    mapLookup (clearPnpCache gC4).fsState.cachedZipReadersMap (str "/a.zip") =
      some ⟨7, 3, 5⟩ := by
  decide

/-- Claim C4 (amended): ClearPnpCache only resets the manifest singleton
(cachedPnpApi and the initialized flag); it leaves the zip-reader cache
state — map and close log — untouched. Readers are closed only by capacity
eviction inside getMatchingFS (whose close log grows exactly by the evicted
oldest reader, when it grows at all), never by manifest invalidation. -/
theorem clearPnpCache_amended :
    (∀ g : PnpProcessState,
      (clearPnpCache g).isPnpApiInitialized = false ∧
      (clearPnpCache g).cachedPnpApi = none ∧
      (clearPnpCache g).fsState = g.fsState) ∧
    (∀ (st : PnpFSState) (p : Str) (stat : Option Int) (opn : Option Nat)
      (now : Nat),
      (getMatchingFS st p stat opn now).1.closedReaders = st.closedReaders ∨
      ∃ q r, pickOldest none st.cachedZipReadersMap = some (q, r) ∧
        (getMatchingFS st p stat opn now).1.closedReaders =
          st.closedReaders ++ [r.reader]) := by
  refine ⟨fun g => ⟨rfl, rfl, rfl⟩, fun st p stat opn now => ?_⟩
  rcases closedReaders_step st p stat opn now with h | ⟨q, r, h1, _, h3⟩
  · exact Or.inl h
  · exact Or.inr ⟨q, r, h1, h3⟩

/-- The stale-mtime reduction of getMatchingFS: a cache hit whose stored
zipMTime differs from the current one takes the reopen path. -/
theorem getMatchingFS_stale (st : PnpFSState) (p : Str) (mt : Int)
    (h now : Nat) (cached : CachedZipReader)
    (hz : isZipPath p = true)
    (hc : mapLookup st.cachedZipReadersMap (splitZipPath p).1 = some cached)
    (hstale : cached.zipMTime ≠ mt) :
    getMatchingFS st p (some mt) (some h) now =
      routeZip (openAndCache st (splitZipPath p).1 h mt now) h p := by
  unfold getMatchingFS
  rw [hz]
  rw [if_pos rfl]
  rw [show getMatchingStat st p (some h) now (some mt) =
    getMatchingCached st p mt (some h) now
      (mapLookup st.cachedZipReadersMap (splitZipPath p).1) from rfl]
  rw [hc]
  rw [show getMatchingCached st p mt (some h) now (some cached) =
    (if cached.zipMTime = mt then
      routeZip ⟨st.maxOpenReaders,
        mapInsert st.cachedZipReadersMap (splitZipPath p).1
          ⟨cached.reader, now, cached.zipMTime⟩,
        st.closedReaders⟩ cached.reader p
    else getMatchingOpen st p mt now (some h)) from rfl]
  rw [if_neg hstale]
  rfl

/-- Claim C10: on a cache hit whose stored zipMTime differs from the
archive's current mtime, getMatchingFS routes through a freshly opened
reader, installs it over the same map key, and the close log grows only by
the entry capacity eviction picked (if it triggered at all); in particular
the displaced stale reader gets closed only if the eviction scan
independently selected it as oldest. -/
theorem getMatchingFS_staleNoClose (st : PnpFSState) (p : Str) (mt : Int)
    (h now : Nat) (cached : CachedZipReader)
    (hz : isZipPath p = true)
    (hc : mapLookup st.cachedZipReadersMap (splitZipPath p).1 = some cached)
    (hstale : cached.zipMTime ≠ mt) :
    (getMatchingFS st p (some mt) (some h) now).2 =
      .zipped h (splitZipPath p).2 (splitZipPath p).1 ∧
    mapLookup
      (getMatchingFS st p (some mt) (some h) now).1.cachedZipReadersMap
      (splitZipPath p).1 = some ⟨h, now, mt⟩ ∧
    ((getMatchingFS st p (some mt) (some h) now).1.closedReaders =
        st.closedReaders ∨
      ∃ q r, pickOldest none st.cachedZipReadersMap = some (q, r) ∧
        (getMatchingFS st p (some mt) (some h) now).1.closedReaders =
          st.closedReaders ++ [r.reader]) ∧
    (cached.reader ∉ st.closedReaders →
      cached.reader ∈
        (getMatchingFS st p (some mt) (some h) now).1.closedReaders →
      ∃ q r, pickOldest none st.cachedZipReadersMap = some (q, r) ∧
        r.reader = cached.reader) := by
  have heq := getMatchingFS_stale st p mt h now cached hz hc hstale
  refine ⟨by rw [heq]; rfl, ?_, ?_, ?_⟩
  · rw [heq]
    show mapLookup
      (openAndCache st (splitZipPath p).1 h mt now).cachedZipReadersMap
      (splitZipPath p).1 = some ⟨h, now, mt⟩
    rcases openAndCache_cases st (splitZipPath p).1 h mt now with ⟨_, h2⟩ |
      ⟨_, h2⟩ <;> rw [h2] <;> exact mapLookup_insert_self _ _ _
  · rcases closedReaders_step st p (some mt) (some h) now with h1 |
      ⟨q, r, h1, _, h3⟩
    · exact Or.inl h1
    · exact Or.inr ⟨q, r, h1, h3⟩
  · intro hnotin hmem
    rcases closedReaders_step st p (some mt) (some h) now with h1 |
      ⟨q, r, h1, _, h3⟩
    · rw [h1] at hmem
      exact absurd hmem hnotin
    · rw [h3] at hmem
      rcases List.mem_append.mp hmem with hm | hm
      · exact absurd hm hnotin
      · simp at hm
        exact ⟨q, r, h1, hm.symm⟩

/-- Claim C10 witness: on stC3 a stale hit for /a.zip (stored mtime 5,
current 9) installs fresh reader 8 over the /a.zip key. -/
theorem getMatchingFS_staleNoClose_witness :
    (getMatchingFS stC3 (str "/a.zip/x") (some 9) (some 8) 4).2 =
      .zipped 8 (splitZipPath (str "/a.zip/x")).2
        (splitZipPath (str "/a.zip/x")).1 ∧
    mapLookup (getMatchingFS stC3 (str "/a.zip/x") (some 9) (some 8)
      4).1.cachedZipReadersMap (splitZipPath (str "/a.zip/x")).1 =
      some ⟨8, 4, 9⟩ :=
  (fun t => ⟨t.1, t.2.1⟩)
    (getMatchingFS_staleNoClose stC3 (str "/a.zip/x") 9 8 4 ⟨7, 3, 5⟩
      (by decide) (by decide) (by decide))

/-- Embedding of pnpFS.UseCaseSensitiveFileNames (src/unnamed/part_002
lines 121-124): the method body is `return true`; it never consults the
wrapped FS, whose own sensitivity is therefore taken as a parameter. -/
def pnpFS_UseCaseSensitiveFileNames (underlyingCaseSensitive : Bool) : Bool :=
  true

/-- Claim C8: UseCaseSensitiveFileNames of the PnP filesystem returns true
regardless of the underlying filesystem's case sensitivity. -/
theorem pnpFS_useCaseSensitive_always_true :
    ∀ b : Bool, pnpFS_UseCaseSensitiveFileNames b = true := fun _ => rfl
